import Mathlib

/-!
Verification development for the route-optimization graph engine
(`Graph.h` / `Menu.cpp` / `FileManager.cpp`).

The data model and the algorithms are embedded shallowly:

* `RoadT`, `LocT`, `GraphT` mirror the C++ classes `Road`, `Location`,
  `Graph`.  A road stores the numeric identifiers of its endpoints; the
  C++ stores pointers to the `Location` objects owned by the graph, so a
  well-formedness predicate `GraphWF` records the facts that are
  guaranteed structurally in C++ (every road stored in a location's
  adjacency list originates at that location and ends at a location of
  the graph, and identifiers are unique, as the specification requires
  of `addNode`'s caller).
* Edge costs are modelled as `Nat` with the sentinel `INF = 2^31 - 1`
  (`std::numeric_limits<int>::max()`); the specification declares both
  cost fields non-negative, and signed overflow of `int` is undefined
  behaviour in the source, so unbounded natural arithmetic is used.
* The transient per-node search state (`distance`, `parent`) is a pair
  of total functions threaded through the search; `Graph::dijkstra`'s
  initialization loop overwrites the state of every location, which the
  embedding mirrors by folding an update over all locations starting
  from an arbitrary prior state.
* `std::priority_queue<pair<int,int>, ..., greater<>>` always pops the
  least `(distance, id)` pair in lexicographic order; the embedding
  keeps the frontier as a list sorted by that order (`pqInsert`) and
  pops the head.  Equal pairs are indistinguishable, so this is
  observationally the same queue.
* The `while` loops of the search and of the path reconstruction are
  modelled with explicit fuel; the fuel amounts used by `dijkstra` are
  proved sufficient for well-formed graphs, so the fuelled functions
  agree with the unbounded C++ loops on every input on which the C++
  terminates.
-/

/-- `std::numeric_limits<int>::max()`, the sentinel used by the source
for "unreachable" costs and distances. -/
def INF : Nat := 2147483647

/-- Mirrors class `Road`: a directed traversal between two locations,
identified here by the endpoint ids, with driving and walking costs. -/
structure RoadT where
  orig : Int
  dest : Int
  driving : Nat
  walking : Nat
  deriving DecidableEq, Repr

/-- Mirrors class `Location`: id, code, parking flag and adjacency list.
The transient `distance`/`parent` fields live in the search state. -/
structure LocT where
  id : Int
  code : String
  hasParking : Bool
  adj : List RoadT
  deriving DecidableEq, Repr

/-- Mirrors class `Graph`: the list of locations. -/
structure GraphT where
  locations : List LocT
  deriving DecidableEq, Repr

/-- The list of location identifiers of a graph. -/
def idsOf (g : GraphT) : List Int := g.locations.map (fun l => l.id)

/-- `Graph::findLocation(int)`: linear scan returning the first
location with the given id. -/
def findLocation (g : GraphT) (v : Int) : Option LocT :=
  g.locations.find? (fun l => l.id == v)

/-- The adjacency list reached through `findLocation(id)->getAdj()`. -/
def adjOf (g : GraphT) (v : Int) : List RoadT :=
  match findLocation g v with
  | some l => l.adj
  | none => []

/-- `Graph::addLocation`. -/
def addLocation (g : GraphT) (id : Int) (code : String) (hasParking : Bool) : GraphT :=
  ⟨g.locations ++ [⟨id, code, hasParking, []⟩]⟩

/-- `Location::addRoad` on the location with the given id. -/
def addRoadTo (g : GraphT) (at_ : Int) (r : RoadT) : GraphT :=
  ⟨g.locations.map (fun l => if l.id = at_ then ⟨l.id, l.code, l.hasParking, l.adj ++ [r]⟩ else l)⟩

/-- `Graph::addRoad`: creates the two directed edges of a bidirectional
connection (no-op if either endpoint is missing). -/
def addRoad (g : GraphT) (fromId toId : Int) (drivingTime walkingTime : Nat) : GraphT :=
  match findLocation g fromId, findLocation g toId with
  | some f, some t =>
      addRoadTo (addRoadTo g f.id ⟨f.id, t.id, drivingTime, walkingTime⟩)
        t.id ⟨t.id, f.id, drivingTime, walkingTime⟩
  | _, _ => g

/-- Structural facts the C++ object graph guarantees: adjacency-stored
roads originate at their owner and end at a location of the graph
(roads hold pointers to graph-owned `Location` objects), and ids are
unique (the specification makes the caller of `addNode` guarantee
this). -/
def GraphWF (g : GraphT) : Prop :=
  (idsOf g).Nodup ∧
    ∀ l ∈ g.locations, ∀ r ∈ l.adj, r.orig = l.id ∧ r.dest ∈ idsOf g

instance (g : GraphT) : Decidable (GraphWF g) := by
  unfold GraphWF; infer_instance

/-- The per-mode edge weight selected by `isDriving`. -/
def weightOf (isDriving : Bool) (r : RoadT) : Nat :=
  if isDriving then r.driving else r.walking

/-- Pointwise update of a total function, modelling a field write on
the object with the given id. -/
def fupd {α : Type} (f : Int → α) (k : Int) (a : α) : Int → α :=
  fun x => if x = k then a else f x

/-- The strict order of `std::greater<>` on `std::pair<int,int>`
(lexicographic); the priority queue pops its least element. -/
def pqLe (a b : Nat × Int) : Bool :=
  a.1 < b.1 || (a.1 == b.1 && a.2 ≤ b.2)

/-- Ordered insertion keeping the frontier sorted by `(dist, id)`;
behaviourally the `emplace` of the binary heap. -/
def pqInsert (x : Nat × Int) : List (Nat × Int) → List (Nat × Int)
  | [] => [x]
  | y :: ys => if pqLe x y then x :: y :: ys else y :: pqInsert x ys

/-- The transient search state: tentative distances, predecessor edges
and the frontier. -/
structure DState where
  dist : Int → Nat
  parent : Int → Option RoadT
  pq : List (Nat × Int)

/-- One relaxation step of the inner `for` loop of `Graph::dijkstra`
(edge `road` out of the popped node `v` whose popped distance is `d`). -/
def relax1 (isDriving : Bool) (bS : List (Int × Int)) (v : Int) (d : Nat)
    (st : DState) (r : RoadT) : DState :=
  let w := weightOf isDriving r
  if w = INF then st
  else if (v, r.dest) ∈ bS then st
  else
    let newDist := d + w
    if newDist < st.dist r.dest then
      { dist := fupd st.dist r.dest newDist
        parent := fupd st.parent r.dest (some r)
        pq := pqInsert (newDist, r.dest) st.pq }
    else st

/-- The whole inner `for` loop over the adjacency of the popped node. -/
def relaxAll (isDriving : Bool) (bS : List (Int × Int)) (v : Int) (d : Nat)
    (rs : List RoadT) (st : DState) : DState :=
  rs.foldl (relax1 isDriving bS v d) st

/-- The `while (!pq.empty())` loop of `Graph::dijkstra`, with fuel. -/
def dloop (g : GraphT) (isDriving : Bool) (bN : List Int) (bS : List (Int × Int)) :
    Nat → DState → DState
  | 0, st => st
  | fuel + 1, st =>
    match st.pq with
    | [] => st
    | (d, v) :: rest =>
      if d > st.dist v then dloop g isDriving bN bS fuel { st with pq := rest }
      else if v ∈ bN then dloop g isDriving bN bS fuel { st with pq := rest }
      else dloop g isDriving bN bS fuel
        (relaxAll isDriving bS v d (adjOf g v) { st with pq := rest })

/-- `unordered_set::insert` seen through membership. -/
def segInsert (p : Int × Int) (s : List (Int × Int)) : List (Int × Int) :=
  if p ∈ s then s else p :: s

/-- The path-reconstruction `while` loop of `Graph::dijkstra`, with
fuel: walks predecessor edges from the destination, inserting each
traversed `(origin, destination)` pair into the blocked-segment set and
appending the origin to the path (reversed by the caller). -/
def reconAux (par : Int → Option RoadT) (sourceId : Int) :
    Nat → Int → List Int → List (Int × Int) → List Int × List (Int × Int)
  | 0, _, path, segs => (path, segs)
  | fuel + 1, v, path, segs =>
    match par v with
    | none => (path, segs)
    | some r =>
      if v = sourceId then (path, segs)
      else
        reconAux par sourceId fuel r.orig (path ++ [r.orig])
          (segInsert (r.orig, r.dest) segs)

/-- The initialization loop of `Graph::dijkstra` run on residual
distances `pd`: every location's distance is overwritten with `INF`,
then the source's with `0`. -/
def initDist (pd : Int → Nat) (g : GraphT) (sourceId : Int) : Int → Nat :=
  fupd (g.locations.foldl (fun m l => fupd m l.id INF) pd) sourceId 0

/-- The initialization loop of `Graph::dijkstra` run on residual
parents `pp`: every location's parent is overwritten with `nullptr`. -/
def initParent (pp : Int → Option RoadT) (g : GraphT) : Int → Option RoadT :=
  g.locations.foldl (fun m l => fupd m l.id none) pp

/-- The state after the main loop of `Graph::dijkstra`: the seeded
initial state run to frontier exhaustion (the fuel is proved
sufficient for well-formed graphs below). -/
def dloopFinal (pd : Int → Nat) (pp : Int → Option RoadT) (g : GraphT)
    (sourceId : Int) (isDriving : Bool)
    (bN : List Int) (bS : List (Int × Int)) : DState :=
  dloop g isDriving bN bS (g.locations.length * INF + 2)
    ⟨initDist pd g sourceId, initParent pp g, [(0, sourceId)]⟩

/-- `Graph::dijkstra`, threading the residual transient node state of
an earlier search (`pd`, `pp`) through the initialization loop, and
returning the result pair together with the final contents of the
mutable `blockedSegments` reference. -/
def dijkstraFrom (pd : Int → Nat) (pp : Int → Option RoadT) (g : GraphT)
    (sourceId destId : Int) (isDriving : Bool)
    (bN : List Int) (bS : List (Int × Int)) :
    (List Int × Nat) × List (Int × Int) :=
  let st := dloopFinal pd pp g sourceId isDriving bN bS
  if st.dist destId = INF then (([], 0), bS)
  else
    (((reconAux st.parent sourceId (g.locations.length + 1) destId [destId] bS).1.reverse,
        st.dist destId),
      (reconAux st.parent sourceId (g.locations.length + 1) destId [destId] bS).2)

/-- `Graph::dijkstra` as called on a freshly considered graph: the
residual transient state is arbitrary (here the defaults) because the
initialization loop overwrites it for every location. -/
def dijkstra (g : GraphT) (sourceId destId : Int) (isDriving : Bool)
    (bN : List Int) (bS : List (Int × Int)) :
    (List Int × Nat) × List (Int × Int) :=
  dijkstraFrom (fun _ => INF) (fun _ => none) g sourceId destId isDriving bN bS

/-- The consecutive `(origin, destination)` identifier pairs of a
returned path. -/
def pathEdges : List Int → List (Int × Int)
  | a :: b :: rest => (a, b) :: pathEdges (b :: rest)
  | _ => []

/-- Mirrors struct `Suggestion`: an itinerary whose walking time
exceeds the budget. -/
structure Suggestion where
  drivePath : List Int
  walkPath : List Int
  parkingNode : Int
  totalTime : Nat
  walkingTime : Nat
  exceedWalkingBy : Int
  deriving DecidableEq, Repr

/-- The mutable accumulator of the candidate loop of
`Graph::EnvironmentallyFriendlyRoute`. -/
structure EcoAcc where
  bestTotalTime : Nat
  bestWalkingTime : Nat
  bestDrive : List Int
  bestWalk : List Int
  bestParking : Int
  suggestions : List Suggestion
  deriving DecidableEq, Repr

/-- One iteration of the candidate loop of
`Graph::EnvironmentallyFriendlyRoute`: skip non-parking nodes and the
endpoints, run the drive leg and then the walk leg on an independent
copy of the exclusion set (the walk leg sees the segments blocked by
the drive leg's reconstruction), then classify by the walking budget. -/
def ecoStep (g : GraphT) (sourceId destId : Int) (maxWalkingTime : Int)
    (avoidNodes : List Int) (callerSegs : List (Int × Int))
    (acc : EcoAcc) (parkingNode : LocT) : EcoAcc :=
  if ¬ parkingNode.hasParking = true ∨ parkingNode.id = sourceId ∨ parkingNode.id = destId then
    acc
  else
    let tmpSegments := callerSegs
    let driveResult := dijkstra g sourceId parkingNode.id true avoidNodes tmpSegments
    if driveResult.1.1 = [] then acc
    else
      let walkResult := dijkstra g parkingNode.id destId false avoidNodes driveResult.2
      if walkResult.1.1 = [] then acc
      else
        let totalTime := driveResult.1.2 + walkResult.1.2
        let exceedWalk : Int := max 0 ((walkResult.1.2 : Int) - maxWalkingTime)
        if exceedWalk = 0 then
          if totalTime < acc.bestTotalTime ∨
              (totalTime = acc.bestTotalTime ∧ walkResult.1.2 < acc.bestWalkingTime) then
            { acc with
              bestTotalTime := totalTime
              bestDrive := driveResult.1.1
              bestWalk := walkResult.1.1
              bestWalkingTime := walkResult.1.2
              bestParking := parkingNode.id }
          else acc
        else
          { acc with
            suggestions := acc.suggestions ++
              [⟨driveResult.1.1, walkResult.1.1, parkingNode.id, totalTime,
                walkResult.1.2, exceedWalk⟩] }

/-- Insertion into a list sorted by `totalTime`; `std::sort` with the
comparator `a.totalTime < b.totalTime` produces some such order. -/
def sugInsert (s : Suggestion) : List Suggestion → List Suggestion
  | [] => [s]
  | t :: ts => if s.totalTime < t.totalTime then s :: t :: ts else t :: sugInsert s ts

/-- Sorting the suggestion list ascending by total time. -/
def sortSuggestions (l : List Suggestion) : List Suggestion :=
  l.foldl (fun acc s => sugInsert s acc) []

/-- The state threaded through the candidate loop: the accumulator
plus the caller's mutable `avoidSegments` reference, which every
iteration copies (`tmpSegments`) and never writes back. -/
structure EcoSt where
  acc : EcoAcc
  callerSegs : List (Int × Int)
  deriving DecidableEq, Repr

/-- `Graph::EnvironmentallyFriendlyRoute`: the returned tuple together
with the final contents of the caller's mutable `avoidSegments`
reference. -/
def EnvironmentallyFriendlyRoute (g : GraphT) (sourceId destId : Int)
    (maxWalkingTime : Int) (avoidNodes : List Int)
    (avoidSegments : List (Int × Int)) :
    (List Int × List Int × Int × Nat × Nat × List Suggestion) × List (Int × Int) :=
  let st := g.locations.foldl
    (fun st parkingNode =>
      ⟨ecoStep g sourceId destId maxWalkingTime avoidNodes st.callerSegs st.acc parkingNode,
        st.callerSegs⟩)
    (⟨⟨INF, INF, [], [], -1, []⟩, avoidSegments⟩ : EcoSt)
  let suggestions :=
    if st.acc.suggestions ≠ [] then sortSuggestions st.acc.suggestions else st.acc.suggestions
  ((st.acc.bestDrive, st.acc.bestWalk, st.acc.bestParking, st.acc.bestTotalTime,
    st.acc.bestWalkingTime, suggestions), st.callerSegs)

/-- Mirrors struct `Output` (the fields the eco branch of
`FileManager::writeOutputFile` reads). -/
structure Output where
  sourceId : Int
  destId : Int
  bestPath : List Int × Nat
  altPath : List Int × Nat
  parkingNode : Int
  totalTime : Nat
  TypeOfInput : Nat
  hasSuggestions : Bool
  suggestions : List Suggestion
  maxWalkingTime : Int

/-- The suggestion-printing loop of `FileManager::writeOutputFile`
(`for (size_t i = 0; i < 2; i++) { ... output.suggestions[i] ... }`):
each emitted block is the rank together with the suggestion read from
the vector.  Reading `suggestions[i]` out of bounds is undefined
behaviour in the source and is modelled by `none`. -/
def writeSuggestionBlocks (suggestions : List Suggestion) :
    Option (List (Nat × Suggestion)) :=
  (List.range 2).foldl
    (fun acc i =>
      match acc with
      | none => none
      | some blocks =>
        match suggestions.get? i with
        | none => none
        | some s => some (blocks ++ [(i + 1, s)]))
    (some [])

/-- The `TypeOfInput == 2` (eco) branch of
`FileManager::writeOutputFile`, abstracted to the suggestion blocks it
emits: the no-route and exact-route cases read no suggestion at all,
and the suggestion case runs the fixed two-iteration loop. -/
def writeOutputFileEco (output : Output) : Option (List (Nat × Suggestion)) :=
  if output.bestPath.1 = [] ∧ output.altPath.1 = [] ∧
      output.parkingNode = -1 ∧ ¬ output.hasSuggestions = true then
    some []
  else if ¬ output.hasSuggestions = true then
    some []
  else
    writeSuggestionBlocks output.suggestions

theorem fupd_same {α : Type} (f : Int → α) (k : Int) (a : α) : fupd f k a k = a := by
  simp [fupd]

theorem fupd_other {α : Type} (f : Int → α) (k x : Int) (a : α) (h : x ≠ k) :
    fupd f k a x = f x := by
  simp [fupd, h]

theorem foldl_fupd_const {α : Type} (a : α) :
    ∀ (ls : List LocT) (base : Int → α) (v : Int),
      (ls.foldl (fun m l => fupd m l.id a) base) v =
        if ∃ l ∈ ls, l.id = v then a else base v := by
  intro ls
  induction ls with
  | nil => intro base v; simp
  | cons l ls ih =>
    intro base v
    by_cases hv : ∃ l' ∈ ls, l'.id = v
    · simp only [List.foldl_cons, ih, hv, if_true]
      have hv2 : ∃ a ∈ ls, a.id = v := hv
      simp [hv2]
    · simp only [List.foldl_cons, ih, hv, if_false]
      by_cases hlv : l.id = v
      · have h1 : v = l.id := hlv.symm
        have h2 : ∃ l' ∈ l :: ls, l'.id = v := ⟨l, List.mem_cons_self _ _, hlv⟩
        simp only [fupd]
        rw [if_pos h1, if_pos h2]
      · have hv2 : ¬ ∃ l' ∈ l :: ls, l'.id = v := by
          rintro ⟨l', hl', h⟩
          rcases List.mem_cons.mp hl' with rfl | hmem
          · exact hlv h
          · exact hv ⟨l', hmem, h⟩
        have h1 : ¬ v = l.id := fun h => hlv h.symm
        simp only [fupd]
        rw [if_neg h1, if_neg hv2]

theorem relax1_cases (m : Bool) (bS : List (Int × Int)) (v : Int) (d : Nat)
    (st : DState) (r : RoadT) :
    relax1 m bS v d st r = st ∨
      (weightOf m r ≠ INF ∧ (v, r.dest) ∉ bS ∧ d + weightOf m r < st.dist r.dest ∧
        relax1 m bS v d st r =
          { dist := fupd st.dist r.dest (d + weightOf m r)
            parent := fupd st.parent r.dest (some r)
            pq := pqInsert (d + weightOf m r, r.dest) st.pq }) := by
  unfold relax1
  by_cases h1 : weightOf m r = INF
  · simp [h1]
  · by_cases h2 : (v, r.dest) ∈ bS
    · simp [h1, h2]
    · by_cases h3 : d + weightOf m r < st.dist r.dest
      · right
        refine ⟨h1, h2, h3, ?_⟩
        simp [h1, h2, h3]
      · simp [h1, h2, h3]

theorem relaxAll_cons (m : Bool) (bS : List (Int × Int)) (v : Int) (d : Nat)
    (r : RoadT) (rs : List RoadT) (st : DState) :
    relaxAll m bS v d (r :: rs) st = relaxAll m bS v d rs (relax1 m bS v d st r) := by
  simp [relaxAll]

theorem relaxAll_nil (m : Bool) (bS : List (Int × Int)) (v : Int) (d : Nat) (st : DState) :
    relaxAll m bS v d [] st = st := rfl

/-- A property of the mutable distance/parent node state that every
single relaxation preserves is preserved by the whole main loop. -/
theorem dloop_pres_dp (g : GraphT) (m : Bool) (bN : List Int) (bS : List (Int × Int))
    (P : (Int → Nat) → (Int → Option RoadT) → Prop)
    (hrelax : ∀ (v : Int) (d : Nat) (st : DState) (r : RoadT),
      P st.dist st.parent →
      P (relax1 m bS v d st r).dist (relax1 m bS v d st r).parent) :
    ∀ (fuel : Nat) (st : DState), P st.dist st.parent →
      P (dloop g m bN bS fuel st).dist (dloop g m bN bS fuel st).parent := by
  have hall : ∀ (rs : List RoadT) (v : Int) (d : Nat) (st : DState),
      P st.dist st.parent →
      P (relaxAll m bS v d rs st).dist (relaxAll m bS v d rs st).parent := by
    intro rs
    induction rs with
    | nil => intro v d st h; exact h
    | cons r rs ih =>
      intro v d st h
      rw [relaxAll_cons]
      exact ih v d _ (hrelax v d st r h)
  intro fuel
  induction fuel with
  | zero => intro st h; exact h
  | succ fuel ih =>
    intro st h
    cases hpq : st.pq with
    | nil => simpa [dloop, hpq] using h
    | cons hd rest =>
      obtain ⟨d, v⟩ := hd
      by_cases hstale : d > st.dist v
      · simpa [dloop, hpq, hstale] using ih { st with pq := rest } h
      · by_cases hbn : v ∈ bN
        · simpa [dloop, hpq, hstale, hbn] using ih { st with pq := rest } h
        · have h2 := hall (adjOf g v) v d { st with pq := rest } h
          simpa [dloop, hpq, hstale, hbn] using ih _ h2

/-- Every parent edge recorded by a relaxation ends at the node whose
parent it is (`road->getDestination()->setParent(road)`). -/
def ParentDestInv (p : Int → Option RoadT) : Prop :=
  ∀ v r, p v = some r → r.dest = v

theorem relax1_parentDest (m : Bool) (bS : List (Int × Int)) (v : Int) (d : Nat)
    (st : DState) (r : RoadT) (h : ParentDestInv st.parent) :
    ParentDestInv (relax1 m bS v d st r).parent := by
  rcases relax1_cases m bS v d st r with heq | ⟨_, _, _, heq⟩ <;> rw [heq]
  · exact h
  · intro u r' hr'
    dsimp only at hr'
    by_cases hu : u = r.dest
    · subst hu
      rw [fupd_same] at hr'
      cases hr'
      rfl
    · rw [show (fupd st.parent r.dest (some r)) u = st.parent u from
        fupd_other _ _ _ _ hu] at hr'
      exact h u r' hr'

theorem initParent_none (pp : Int → Option RoadT) (g : GraphT) (v : Int)
    (hpp : pp v = none) : initParent pp g v = none := by
  unfold initParent
  rw [foldl_fupd_const]
  split <;> simp [hpp]

theorem initDist_src (pd : Int → Nat) (g : GraphT) (s : Int) : initDist pd g s s = 0 := by
  unfold initDist
  exact fupd_same _ _ _

/-- The final parent map of a `dijkstra` call records only edges ending
at the node they are stored on. -/
theorem dijkstra_parentDest (g : GraphT) (s : Int) (m : Bool) (bN : List Int)
    (bS : List (Int × Int)) :
    ParentDestInv (dloopFinal (fun _ => INF) (fun _ => none) g s m bN bS).parent := by
  unfold dloopFinal
  apply dloop_pres_dp g m bN bS (fun _ p => ParentDestInv p)
    (fun v d st r h => relax1_parentDest m bS v d st r h)
  intro v r hr
  dsimp only at hr
  rw [initParent_none (fun _ => none) g v rfl] at hr
  cases hr

theorem mem_segInsert_self (p : Int × Int) (s : List (Int × Int)) : p ∈ segInsert p s := by
  unfold segInsert
  split
  · assumption
  · exact List.mem_cons_self _ _

theorem mem_segInsert_of_mem (p q : Int × Int) (s : List (Int × Int)) (h : q ∈ s) :
    q ∈ segInsert p s := by
  unfold segInsert
  split
  · exact h
  · exact List.mem_cons_of_mem _ h

theorem getLast?_append_singleton (l : List Int) (x : Int) :
    (l ++ [x]).getLast? = some x := by
  rw [← List.head?_reverse]
  simp

theorem pathEdges_nil : pathEdges [] = [] := rfl

theorem pathEdges_single (a : Int) : pathEdges [a] = [] := rfl

theorem pathEdges_cons_cons (a b : Int) (l : List Int) :
    pathEdges (a :: b :: l) = (a, b) :: pathEdges (b :: l) := rfl

/-- Through the reconstruction loop, every consecutive pair of the
(reversed) accumulated path is in the accumulated segment set, because
each traversed parent edge's `(origin, destination)` pair is inserted
exactly when its origin is appended. -/
theorem reconAux_edges_sub (par : Int → Option RoadT) (src : Int)
    (hP : ParentDestInv par) :
    ∀ (fuel : Nat) (v : Int) (path : List Int) (segs : List (Int × Int)),
      path.getLast? = some v →
      (∀ p ∈ pathEdges path.reverse, p ∈ segs) →
      ∀ p ∈ pathEdges (reconAux par src fuel v path segs).1.reverse,
        p ∈ (reconAux par src fuel v path segs).2 := by
  intro fuel
  induction fuel with
  | zero =>
    intro v path segs _ hsub
    simpa [reconAux] using hsub
  | succ fuel ih =>
    intro v path segs hlast hsub
    cases hpv : par v with
    | none => simpa [reconAux, hpv] using hsub
    | some r =>
      by_cases hvs : v = src
      · have hstep : reconAux par src (fuel + 1) v path segs = (path, segs) := by
          unfold reconAux
          rw [hpv]
          simp [hvs]
        rw [hstep]
        simpa using hsub
      · have hstep : reconAux par src (fuel + 1) v path segs =
            reconAux par src fuel r.orig (path ++ [r.orig])
              (segInsert (r.orig, r.dest) segs) := by
          simp [reconAux, hpv, hvs]
        rw [hstep]
        apply ih
        · exact getLast?_append_singleton _ _
        · intro p hp
          have hrevhead : path.reverse.head? = some v := by
            rw [List.head?_reverse]
            exact hlast
          have hdest : r.dest = v := hP v r hpv
          rw [List.reverse_append] at hp
          cases hrev : path.reverse with
          | nil => rw [hrev] at hrevhead; cases hrevhead
          | cons a t =>
            rw [hrev] at hrevhead
            have hav : a = v := by
              simpa using hrevhead
            rw [hrev] at hp
            simp only [List.reverse_cons, List.reverse_nil, List.nil_append,
              List.singleton_append] at hp
            rw [pathEdges_cons_cons] at hp
            rcases List.mem_cons.mp hp with rfl | hmem
            · rw [hav, ← hdest]
              exact mem_segInsert_self _ _
            · apply mem_segInsert_of_mem
              apply hsub
              rw [hrev]
              exact hmem

theorem dijkstra_def (g : GraphT) (s d : Int) (m : Bool) (bN : List Int)
    (bS : List (Int × Int)) :
    dijkstra g s d m bN bS = dijkstraFrom (fun _ => INF) (fun _ => none) g s d m bN bS := rfl

theorem dijkstraFrom_unreachable (pd : Int → Nat) (pp : Int → Option RoadT) (g : GraphT)
    (s d : Int) (m : Bool) (bN : List Int) (bS : List (Int × Int))
    (h : (dloopFinal pd pp g s m bN bS).dist d = INF) :
    dijkstraFrom pd pp g s d m bN bS = (([], 0), bS) := by
  unfold dijkstraFrom
  simp [h]

theorem dijkstraFrom_reachable (pd : Int → Nat) (pp : Int → Option RoadT) (g : GraphT)
    (s d : Int) (m : Bool) (bN : List Int) (bS : List (Int × Int))
    (h : ¬ (dloopFinal pd pp g s m bN bS).dist d = INF) :
    dijkstraFrom pd pp g s d m bN bS =
      (((reconAux (dloopFinal pd pp g s m bN bS).parent s (g.locations.length + 1) d
            [d] bS).1.reverse,
          (dloopFinal pd pp g s m bN bS).dist d),
        (reconAux (dloopFinal pd pp g s m bN bS).parent s (g.locations.length + 1) d
          [d] bS).2) := by
  unfold dijkstraFrom
  simp [h]

theorem dijkstra_edges_blocked_aux (g : GraphT) (s d : Int) (m : Bool)
    (bN : List Int) (bS : List (Int × Int)) :
    ∀ p ∈ pathEdges (dijkstra g s d m bN bS).1.1, p ∈ (dijkstra g s d m bN bS).2 := by
  by_cases hd : (dloopFinal (fun _ => INF) (fun _ => none) g s m bN bS).dist d = INF
  · rw [dijkstra_def, dijkstraFrom_unreachable _ _ _ _ _ _ _ _ hd]
    simp [pathEdges_nil]
  · rw [dijkstra_def, dijkstraFrom_reachable _ _ _ _ _ _ _ _ hd]
    exact reconAux_edges_sub _ s (dijkstra_parentDest g s m bN bS) _ d [d] bS
      (by simp) (by simp [pathEdges_single])

/-- Claim C2: after every `dijkstra` call, each directed
`(origin, destination)` identifier pair of an edge traversed by the
returned path is a member of the caller's mutable `blockedSegments`
set (stated for every call; a call returning an empty or single-node
path traverses no edge). -/
theorem dijkstra_traversed_edges_blocked (g : GraphT) (s d : Int) (m : Bool)
    (bN : List Int) (bS : List (Int × Int)) :
    ∀ p ∈ pathEdges (dijkstra g s d m bN bS).1.1, p ∈ (dijkstra g s d m bN bS).2 :=
  dijkstra_edges_blocked_aux g s d m bN bS

/-- Claim C9: a `dijkstra` query whose source equals its destination
returns the single-node path with total cost `0`, for every exclusion
set, including when the node is blocked: the source's distance is
initialized to `0`, no relaxation can lower it, and the
reconstruction loop stops immediately at the source. -/
theorem dijkstra_source_eq_dest (g : GraphT) (s : Int) (m : Bool) (bN : List Int)
    (bS : List (Int × Int)) (hs : s ∈ idsOf g) :
    dijkstra g s s m bN bS = (([s], 0), bS) := by
  have h0 : (dloopFinal (fun _ => INF) (fun _ => none) g s m bN bS).dist s = 0 := by
    unfold dloopFinal
    apply dloop_pres_dp g m bN bS (fun dist _ => dist s = 0)
    · intro v d st r h
      rcases relax1_cases m bS v d st r with heq | ⟨_, _, hlt, heq⟩ <;> rw [heq]
      · exact h
      · dsimp only
        by_cases hsd : s = r.dest
        · exfalso
          rw [← hsd, h] at hlt
          exact Nat.not_lt_zero _ hlt
        · rw [fupd_other _ _ _ _ hsd]
          exact h
    · exact initDist_src _ _ _
  have hne : ¬ (dloopFinal (fun _ => INF) (fun _ => none) g s m bN bS).dist s = INF := by
    rw [h0]
    decide
  rw [dijkstra_def, dijkstraFrom_reachable _ _ _ _ _ _ _ _ hne]
  have hrec : reconAux (dloopFinal (fun _ => INF) (fun _ => none) g s m bN bS).parent s
      (g.locations.length + 1) s [s] bS = ([s], bS) := by
    cases hpv : (dloopFinal (fun _ => INF) (fun _ => none) g s m bN bS).parent s with
    | none =>
      unfold reconAux
      rw [hpv]
    | some r =>
      unfold reconAux
      rw [hpv]
      simp
  rw [hrec, h0]
  rfl

theorem ecoFold_st (g : GraphT) (s d mw : Int) (bN : List Int) :
    ∀ (ls : List LocT) (acc0 : EcoAcc) (cs : List (Int × Int)),
      ls.foldl
        (fun st p => (⟨ecoStep g s d mw bN st.callerSegs st.acc p, st.callerSegs⟩ : EcoSt))
        ⟨acc0, cs⟩ =
      ⟨ls.foldl (fun a p => ecoStep g s d mw bN cs a p) acc0, cs⟩ := by
  intro ls
  induction ls with
  | nil => intro acc0 cs; rfl
  | cons l ls ih =>
    intro acc0 cs
    simp only [List.foldl_cons]
    exact ih _ _

/-- Claim C7: `Graph::EnvironmentallyFriendlyRoute` leaves the
caller's mutable `avoidSegments` reference unchanged: every candidate
iteration copies the set into `tmpSegments` and mutates only the
copy. -/
theorem eco_avoidSegments_unchanged (g : GraphT) (s d mw : Int) (bN : List Int)
    (bS : List (Int × Int)) :
    (EnvironmentallyFriendlyRoute g s d mw bN bS).2 = bS := by
  unfold EnvironmentallyFriendlyRoute
  rw [ecoFold_st]

/-- A concrete suggestion, used as the failing input of claim C6. -/
def sugDemo : Suggestion := ⟨[1, 2], [2, 3], 2, 9, 3, 2⟩

/-- An eco-mode output carrying exactly one suggestion, as produced by
`planEnvironmentallyFriendlyRoute` when a single candidate exceeds the
walking budget. -/
def outputOneSuggestion : Output :=
  ⟨1, 3, ([1, 2], 6), ([2, 3], 3), 2, 9, 2, true, [sugDemo], 1⟩

/-- Claim C6 (refuted by the code): the suggestion-printing loop of
`FileManager::writeOutputFile` iterates `i = 0, 1` unconditionally, so
on an output whose suggestion list has exactly one element it reads
`suggestions[1]` out of bounds (modelled as `none`). -/
theorem writeOutputFileEco_oob_one_suggestion :
    writeOutputFileEco outputOneSuggestion = none := by decide

/-- The suggestion loop reads only indices `0` and `1`: with at least
two suggestions available it emits exactly the first two ranked
blocks, in bounds. -/
theorem writeSuggestionBlocks_two (s1 s2 : Suggestion) (rest : List Suggestion) :
    writeSuggestionBlocks (s1 :: s2 :: rest) = some [(1, s1), (2, s2)] := rfl

/-- With a single suggestion the loop's second iteration reads out of
bounds. -/
theorem writeSuggestionBlocks_one (s1 : Suggestion) :
    writeSuggestionBlocks [s1] = none := rfl

/-- The concrete network of the specification's test scenario: nodes
`A(1)`, `B(2, parking)`, `C(3)`, connections `A-B` (drive 5, walk 20)
and `B-C` (drive 4, walk 3). -/
def sampleGraph : GraphT :=
  addRoad
    (addRoad
      (addLocation (addLocation (addLocation ⟨[]⟩ 1 "A" false) 2 "B" true) 3 "C" false)
      1 2 5 20)
    2 3 4 3

theorem dijkstra_source_eq_dest_witness :
    1 ∈ idsOf sampleGraph ∧
      dijkstra sampleGraph 1 1 true [1] [(2, 3)] = (([1], 0), [(2, 3)]) :=
  ⟨by decide, dijkstra_source_eq_dest sampleGraph 1 true [1] [(2, 3)] (by decide)⟩

/-- The evaluation of one transfer candidate, exactly as the body of
the candidate loop performs it: the drive leg from the source to the
candidate on a fresh copy of the exclusion set, then the walk leg from
the candidate to the destination on the set mutated by the drive leg;
`none` when either leg finds no path, otherwise the drive path, walk
path, total time and walk time. -/
def candEval (g : GraphT) (s d : Int) (bN : List Int) (bS : List (Int × Int))
    (loc : LocT) : Option (List Int × List Int × Nat × Nat) :=
  let driveResult := dijkstra g s loc.id true bN bS
  if driveResult.1.1 = [] then none
  else
    let walkResult := dijkstra g loc.id d false bN driveResult.2
    if walkResult.1.1 = [] then none
    else
      some (driveResult.1.1, walkResult.1.1, driveResult.1.2 + walkResult.1.2, walkResult.1.2)

/-- A location is a transfer candidate for a query when it has parking
and is neither the source nor the destination. -/
def IsCand (s d : Int) (loc : LocT) : Prop :=
  loc.hasParking = true ∧ loc.id ≠ s ∧ loc.id ≠ d

/-- The strict lexicographic improvement test of the candidate loop:
lower total time, or equal total time and lower walk time. -/
def Better (t wt bt bwt : Nat) : Prop := t < bt ∨ (t = bt ∧ wt < bwt)

theorem ecoStep_cases (g : GraphT) (s d mw : Int) (bN : List Int) (bS : List (Int × Int))
    (acc : EcoAcc) (loc : LocT) :
    (¬ IsCand s d loc ∧ ecoStep g s d mw bN bS acc loc = acc) ∨
    (IsCand s d loc ∧ candEval g s d bN bS loc = none ∧
      ecoStep g s d mw bN bS acc loc = acc) ∨
    (∃ dp wp t wt, IsCand s d loc ∧
      candEval g s d bN bS loc = some (dp, wp, t, wt) ∧
      (((wt : Int) ≤ mw ∧
        ((Better t wt acc.bestTotalTime acc.bestWalkingTime ∧
          ecoStep g s d mw bN bS acc loc =
            { acc with
              bestTotalTime := t
              bestDrive := dp
              bestWalk := wp
              bestWalkingTime := wt
              bestParking := loc.id }) ∨
         (¬ Better t wt acc.bestTotalTime acc.bestWalkingTime ∧
          ecoStep g s d mw bN bS acc loc = acc))) ∨
       (¬ (wt : Int) ≤ mw ∧
        ecoStep g s d mw bN bS acc loc =
          { acc with
            suggestions := acc.suggestions ++
              [⟨dp, wp, loc.id, t, wt, max 0 ((wt : Int) - mw)⟩] }))) := by
  by_cases hcand : ¬ loc.hasParking = true ∨ loc.id = s ∨ loc.id = d
  · left
    constructor
    · unfold IsCand
      tauto
    · unfold ecoStep
      rw [if_pos hcand]
  · have hic : IsCand s d loc := by
      unfold IsCand
      tauto
    by_cases hdr : (dijkstra g s loc.id true bN bS).1.1 = []
    · right; left
      refine ⟨hic, ?_, ?_⟩
      · unfold candEval
        simp [hdr]
      · unfold ecoStep
        rw [if_neg hcand]
        simp [hdr]
    · by_cases hwr : (dijkstra g loc.id d false bN (dijkstra g s loc.id true bN bS).2).1.1 = []
      · right; left
        refine ⟨hic, ?_, ?_⟩
        · unfold candEval
          simp [hdr, hwr]
        · unfold ecoStep
          rw [if_neg hcand]
          simp [hdr, hwr]
      · right; right
        refine ⟨(dijkstra g s loc.id true bN bS).1.1,
          (dijkstra g loc.id d false bN (dijkstra g s loc.id true bN bS).2).1.1,
          (dijkstra g s loc.id true bN bS).1.2 +
            (dijkstra g loc.id d false bN (dijkstra g s loc.id true bN bS).2).1.2,
          (dijkstra g loc.id d false bN (dijkstra g s loc.id true bN bS).2).1.2,
          hic, ?_, ?_⟩
        · unfold candEval
          simp [hdr, hwr]
        · by_cases hex : ((dijkstra g loc.id d false bN
              (dijkstra g s loc.id true bN bS).2).1.2 : Int) ≤ mw
          · left
            refine ⟨hex, ?_⟩
            have hex0 : max 0 (((dijkstra g loc.id d false bN
                (dijkstra g s loc.id true bN bS).2).1.2 : Int) - mw) = 0 := by
              omega
            by_cases hbet : Better
                ((dijkstra g s loc.id true bN bS).1.2 +
                  (dijkstra g loc.id d false bN (dijkstra g s loc.id true bN bS).2).1.2)
                (dijkstra g loc.id d false bN (dijkstra g s loc.id true bN bS).2).1.2
                acc.bestTotalTime acc.bestWalkingTime
            · left
              refine ⟨hbet, ?_⟩
              unfold ecoStep
              rw [if_neg hcand]
              unfold Better at hbet
              rw [if_neg hdr, if_neg hwr, if_pos hex0, if_pos hbet]
            · right
              refine ⟨hbet, ?_⟩
              unfold ecoStep
              rw [if_neg hcand]
              unfold Better at hbet
              rw [if_neg hdr, if_neg hwr, if_pos hex0, if_neg hbet]
          · right
            refine ⟨hex, ?_⟩
            have hex0 : ¬ max 0 (((dijkstra g loc.id d false bN
                (dijkstra g s loc.id true bN bS).2).1.2 : Int) - mw) = 0 := by
              omega
            unfold ecoStep
            rw [if_neg hcand]
            rw [if_neg hdr, if_neg hwr, if_neg hex0]

/-- The loop invariant of the candidate loop: the current best fields
either are still the sentinels, or record the evaluation of some
already-processed feasible candidate, and no already-processed
feasible candidate beats the current best lexicographically. -/
def EcoInv (g : GraphT) (s d mw : Int) (bN : List Int) (bS : List (Int × Int))
    (processed : List LocT) (acc : EcoAcc) : Prop :=
  ((acc.bestParking = -1 ∧ acc.bestTotalTime = INF ∧ acc.bestWalkingTime = INF) ∨
    ∃ loc ∈ processed, IsCand s d loc ∧
      candEval g s d bN bS loc =
        some (acc.bestDrive, acc.bestWalk, acc.bestTotalTime, acc.bestWalkingTime) ∧
      (acc.bestWalkingTime : Int) ≤ mw ∧ acc.bestParking = loc.id) ∧
  ∀ loc ∈ processed, IsCand s d loc →
    ∀ dp wp t wt, candEval g s d bN bS loc = some (dp, wp, t, wt) → (wt : Int) ≤ mw →
      ¬ Better t wt acc.bestTotalTime acc.bestWalkingTime

theorem ecoStep_inv (g : GraphT) (s d mw : Int) (bN : List Int) (bS : List (Int × Int))
    (processed : List LocT) (acc : EcoAcc) (loc : LocT)
    (h : EcoInv g s d mw bN bS processed acc) :
    EcoInv g s d mw bN bS (processed ++ [loc]) (ecoStep g s d mw bN bS acc loc) := by
  obtain ⟨hbest, hopt⟩ := h
  rcases ecoStep_cases g s d mw bN bS acc loc with
    ⟨hnc, heq⟩ | ⟨hic, hnone, heq⟩ |
    ⟨dp, wp, t, wt, hic, hsome, ⟨hfeas, ⟨hbet, heq⟩ | ⟨hbet, heq⟩⟩ | ⟨hinfeas, heq⟩⟩
  · rw [heq]
    constructor
    · rcases hbest with hl | ⟨loc', hmem, hrest⟩
      · exact Or.inl hl
      · exact Or.inr ⟨loc', List.mem_append_left _ hmem, hrest⟩
    · intro l hl hcandl dp wp t wt hev hfe
      rcases List.mem_append.mp hl with hl | hl
      · exact hopt l hl hcandl dp wp t wt hev hfe
      · rcases List.mem_singleton.mp hl with rfl
        exact absurd hcandl hnc
  · rw [heq]
    constructor
    · rcases hbest with hl | ⟨loc', hmem, hrest⟩
      · exact Or.inl hl
      · exact Or.inr ⟨loc', List.mem_append_left _ hmem, hrest⟩
    · intro l hl hcandl dp wp t wt hev hfe
      rcases List.mem_append.mp hl with hl | hl
      · exact hopt l hl hcandl dp wp t wt hev hfe
      · rcases List.mem_singleton.mp hl with rfl
        rw [hnone] at hev
        cases hev
  · -- feasible and better: the best fields are updated to this candidate
    rw [heq]
    constructor
    · refine Or.inr ⟨loc, List.mem_append_right _ (List.mem_singleton_self _), hic, ?_, ?_, rfl⟩
      · exact hsome
      · exact hfeas
    · intro l hl hcandl dp' wp' t' wt' hev hfe
      rcases List.mem_append.mp hl with hl | hl
      · have hold := hopt l hl hcandl dp' wp' t' wt' hev hfe
        unfold Better at hold hbet ⊢
        dsimp only
        omega
      · rcases List.mem_singleton.mp hl with rfl
        rw [hsome] at hev
        cases hev
        unfold Better
        dsimp only
        omega
  · -- feasible but not better than the current best: nothing changes
    rw [heq]
    constructor
    · rcases hbest with hl | ⟨loc', hmem, hrest⟩
      · exact Or.inl hl
      · exact Or.inr ⟨loc', List.mem_append_left _ hmem, hrest⟩
    · intro l hl hcandl dp' wp' t' wt' hev hfe
      rcases List.mem_append.mp hl with hl | hl
      · exact hopt l hl hcandl dp' wp' t' wt' hev hfe
      · rcases List.mem_singleton.mp hl with rfl
        rw [hsome] at hev
        cases hev
        exact hbet
  · -- infeasible: recorded as a suggestion, best fields unchanged
    rw [heq]
    constructor
    · rcases hbest with hl | ⟨loc', hmem, hrest⟩
      · exact Or.inl hl
      · exact Or.inr ⟨loc', List.mem_append_left _ hmem, hrest⟩
    · intro l hl hcandl dp' wp' t' wt' hev hfe
      rcases List.mem_append.mp hl with hl | hl
      · exact hopt l hl hcandl dp' wp' t' wt' hev hfe
      · rcases List.mem_singleton.mp hl with rfl
        rw [hsome] at hev
        cases hev
        exact absurd hfe hinfeas

theorem ecoFold_inv (g : GraphT) (s d mw : Int) (bN : List Int) (bS : List (Int × Int)) :
    ∀ (ls processed : List LocT) (acc : EcoAcc),
      EcoInv g s d mw bN bS processed acc →
      EcoInv g s d mw bN bS (processed ++ ls)
        (ls.foldl (fun a p => ecoStep g s d mw bN bS a p) acc) := by
  intro ls
  induction ls with
  | nil =>
    intro processed acc h
    simpa using h
  | cons l ls ih =>
    intro processed acc h
    rw [List.foldl_cons]
    have h2 := ih (processed ++ [l]) _ (ecoStep_inv g s d mw bN bS processed acc l h)
    simpa [List.append_assoc] using h2

/-- Claim C5: when `EnvironmentallyFriendlyRoute` returns a feasible
best result (a parking node other than the `-1` sentinel), the chosen
transfer node is a parking-capable location different from source and
destination, its evaluated legs give exactly the returned times, its
walk time is within the budget, and no other feasible candidate has a
strictly lower total time, nor an equal total time with a strictly
lower walk time. -/
theorem eco_best_transfer_optimal (g : GraphT) (s d mw : Int) (bN : List Int)
    (bS : List (Int × Int)) (bd bw : List Int) (bp : Int) (bt bwt : Nat)
    (sugs : List Suggestion)
    (hres : (EnvironmentallyFriendlyRoute g s d mw bN bS).1 = (bd, bw, bp, bt, bwt, sugs))
    (hbp : bp ≠ -1) :
    ∃ loc ∈ g.locations, loc.hasParking = true ∧ loc.id ≠ s ∧ loc.id ≠ d ∧ loc.id = bp ∧
      candEval g s d bN bS loc = some (bd, bw, bt, bwt) ∧ (bwt : Int) ≤ mw ∧
      ∀ loc' ∈ g.locations, loc'.hasParking = true → loc'.id ≠ s → loc'.id ≠ d →
        ∀ dp' wp' t' wt', candEval g s d bN bS loc' = some (dp', wp', t', wt') →
          (wt' : Int) ≤ mw → ¬ (t' < bt ∨ (t' = bt ∧ wt' < bwt)) := by
  have hinit : EcoInv g s d mw bN bS [] ⟨INF, INF, [], [], -1, []⟩ := by
    constructor
    · exact Or.inl ⟨rfl, rfl, rfl⟩
    · intro l hl
      cases hl
  have hinv := ecoFold_inv g s d mw bN bS g.locations [] ⟨INF, INF, [], [], -1, []⟩ hinit
  rw [List.nil_append] at hinv
  unfold EnvironmentallyFriendlyRoute at hres
  rw [ecoFold_st] at hres
  dsimp only at hres
  simp only [Prod.mk.injEq] at hres
  obtain ⟨hbd, hbw, hbp2, hbt, hbwt, _⟩ := hres
  obtain ⟨hbest, hopt⟩ := hinv
  rcases hbest with ⟨hsent, -, -⟩ | ⟨loc, hmem, hic, hev, hfe, hid⟩
  · exact absurd (hbp2 ▸ hsent.symm).symm hbp
  · refine ⟨loc, hmem, hic.1, hic.2.1, hic.2.2, by rw [← hbp2, hid], ?_, ?_, ?_⟩
    · rw [← hbd, ← hbw, ← hbt, ← hbwt]
      exact hev
    · rw [← hbwt]
      exact hfe
    · intro loc' hmem' hp' hs' hd' dp' wp' t' wt' hev' hfe'
      have := hopt loc' hmem' ⟨hp', hs', hd'⟩ dp' wp' t' wt' hev' hfe'
      unfold Better at this
      rw [← hbt, ← hbwt]
      exact this

theorem eco_best_transfer_optimal_witness :
    (EnvironmentallyFriendlyRoute sampleGraph 1 3 25 [] []).1 =
      ([1, 2], [2, 3], 2, 8, 3, []) ∧ (2 : Int) ≠ -1 ∧
    ∃ loc ∈ sampleGraph.locations, loc.hasParking = true ∧ loc.id ≠ 1 ∧ loc.id ≠ 3 ∧
      loc.id = 2 ∧
      candEval sampleGraph 1 3 [] [] loc = some ([1, 2], [2, 3], 8, 3) ∧ ((3 : Nat) : Int) ≤ 25 ∧
      ∀ loc' ∈ sampleGraph.locations, loc'.hasParking = true → loc'.id ≠ 1 → loc'.id ≠ 3 →
        ∀ dp' wp' t' wt', candEval sampleGraph 1 3 [] [] loc' = some (dp', wp', t', wt') →
          (wt' : Int) ≤ 25 → ¬ (t' < 8 ∨ (t' = 8 ∧ wt' < 3)) :=
  ⟨by decide, by decide,
    eco_best_transfer_optimal sampleGraph 1 3 25 [] [] [1, 2] [2, 3] 2 8 3 []
      (by decide) (by decide)⟩

theorem adjOf_spec (g : GraphT) (hwf : GraphWF g) (v : Int) (r : RoadT)
    (hr : r ∈ adjOf g v) :
    r.orig = v ∧ r.dest ∈ idsOf g ∧ ∃ loc ∈ g.locations, loc.id = v ∧ r ∈ loc.adj := by
  unfold adjOf at hr
  cases hfl : findLocation g v with
  | none =>
    rw [hfl] at hr
    cases hr
  | some l =>
    rw [hfl] at hr
    unfold findLocation at hfl
    have hmem : l ∈ g.locations := List.mem_of_find?_eq_some hfl
    have hid : l.id = v := by
      have hp := List.find?_some hfl
      simpa using hp
    obtain ⟨ho, hd⟩ := hwf.2 l hmem r hr
    exact ⟨ho.trans hid, hd, l, hmem, hid, hr⟩

/-- A property of the node state that is preserved by every relaxation
performed from an unblocked popped node on one of its own outgoing
edges is preserved by the whole main loop. -/
theorem dloop_pres_dp2 (g : GraphT) (m : Bool) (bN : List Int) (bS : List (Int × Int))
    (P : (Int → Nat) → (Int → Option RoadT) → Prop)
    (hrelax : ∀ (v : Int) (d : Nat) (st : DState) (r : RoadT),
      r ∈ adjOf g v → v ∉ bN → P st.dist st.parent →
      P (relax1 m bS v d st r).dist (relax1 m bS v d st r).parent) :
    ∀ (fuel : Nat) (st : DState), P st.dist st.parent →
      P (dloop g m bN bS fuel st).dist (dloop g m bN bS fuel st).parent := by
  have hall : ∀ (rs : List RoadT) (v : Int) (d : Nat) (st : DState),
      (∀ r ∈ rs, r ∈ adjOf g v) → v ∉ bN → P st.dist st.parent →
      P (relaxAll m bS v d rs st).dist (relaxAll m bS v d rs st).parent := by
    intro rs
    induction rs with
    | nil => intro v d st _ _ h; exact h
    | cons r rs ih =>
      intro v d st hsub hbn h
      rw [relaxAll_cons]
      exact ih v d _ (fun r' hr' => hsub r' (List.mem_cons_of_mem _ hr')) hbn
        (hrelax v d st r (hsub r (List.mem_cons_self _ _)) hbn h)
  intro fuel
  induction fuel with
  | zero => intro st h; exact h
  | succ fuel ih =>
    intro st h
    cases hpq : st.pq with
    | nil => simpa [dloop, hpq] using h
    | cons hd rest =>
      obtain ⟨d, v⟩ := hd
      by_cases hstale : d > st.dist v
      · simpa [dloop, hpq, hstale] using ih { st with pq := rest } h
      · by_cases hbn : v ∈ bN
        · simpa [dloop, hpq, hstale, hbn] using ih { st with pq := rest } h
        · have h2 := hall (adjOf g v) v d { st with pq := rest } (fun r hr => hr) hbn h
          simpa [dloop, hpq, hstale, hbn] using ih _ h2

/-- Through the reconstruction loop, every consecutive pair of the
(reversed) accumulated path is the `(origin, destination)` pair of the
parent edge of its second component. -/
theorem reconAux_edges_parent (par : Int → Option RoadT) (src : Int) :
    ∀ (fuel : Nat) (v : Int) (path : List Int) (segs : List (Int × Int)),
      path.getLast? = some v →
      (∀ a b, (a, b) ∈ pathEdges path.reverse → ∃ r, par b = some r ∧ r.orig = a) →
      ∀ a b, (a, b) ∈ pathEdges (reconAux par src fuel v path segs).1.reverse →
        ∃ r, par b = some r ∧ r.orig = a := by
  intro fuel
  induction fuel with
  | zero =>
    intro v path segs _ hsub
    simpa [reconAux] using hsub
  | succ fuel ih =>
    intro v path segs hlast hsub
    cases hpv : par v with
    | none => simpa [reconAux, hpv] using hsub
    | some r =>
      by_cases hvs : v = src
      · have hstep : reconAux par src (fuel + 1) v path segs = (path, segs) := by
          unfold reconAux
          rw [hpv]
          simp [hvs]
        rw [hstep]
        simpa using hsub
      · have hstep : reconAux par src (fuel + 1) v path segs =
            reconAux par src fuel r.orig (path ++ [r.orig])
              (segInsert (r.orig, r.dest) segs) := by
          simp [reconAux, hpv, hvs]
        rw [hstep]
        apply ih
        · exact getLast?_append_singleton _ _
        · intro a b hab
          have hrevhead : path.reverse.head? = some v := by
            rw [List.head?_reverse]
            exact hlast
          rw [List.reverse_append] at hab
          cases hrev : path.reverse with
          | nil => rw [hrev] at hrevhead; cases hrevhead
          | cons x t =>
            rw [hrev] at hrevhead
            have hav : x = v := by simpa using hrevhead
            rw [hrev] at hab
            simp only [List.reverse_cons, List.reverse_nil, List.nil_append,
              List.singleton_append] at hab
            rw [pathEdges_cons_cons] at hab
            rcases List.mem_cons.mp hab with heq | hmem
            · have h1 : a = r.orig := (Prod.mk.injEq _ _ _ _).mp heq |>.1
              have h2 : b = x := (Prod.mk.injEq _ _ _ _).mp heq |>.2
              subst h1
              subst h2
              rw [hav, hpv]
              exact ⟨r, rfl, rfl⟩
            · apply hsub
              rw [hrev]
              exact hmem

/-- Claim C4 amended part: blocked nodes never originate relaxations,
so every edge of a returned path starts at an unblocked node (while
the destination itself may be blocked and still be reached). -/
theorem dijkstra_path_origins_unblocked (g : GraphT) (s d : Int) (m : Bool)
    (bN : List Int) (bS : List (Int × Int)) (hwf : GraphWF g) :
    ∀ a b, (a, b) ∈ pathEdges (dijkstra g s d m bN bS).1.1 → a ∉ bN := by
  have hOinv : ∀ v r,
      (dloopFinal (fun _ => INF) (fun _ => none) g s m bN bS).parent v = some r →
      r.orig ∉ bN := by
    unfold dloopFinal
    apply dloop_pres_dp2 g m bN bS (fun _ p => ∀ v r, p v = some r → r.orig ∉ bN)
    · intro v d' st r hadj hbn h
      rcases relax1_cases m bS v d' st r with heq | ⟨_, _, _, heq⟩ <;> rw [heq]
      · exact h
      · intro u r' hr'
        dsimp only at hr'
        by_cases hu : u = r.dest
        · subst hu
          rw [fupd_same] at hr'
          cases hr'
          rw [(adjOf_spec g hwf v r hadj).1]
          exact hbn
        · rw [fupd_other _ _ _ _ hu] at hr'
          exact h u r' hr'
    · intro v r hr
      dsimp only at hr
      rw [initParent_none (fun _ => none) g v rfl] at hr
      cases hr
  by_cases hd : (dloopFinal (fun _ => INF) (fun _ => none) g s m bN bS).dist d = INF
  · rw [dijkstra_def, dijkstraFrom_unreachable _ _ _ _ _ _ _ _ hd]
    intro a b hab
    cases hab
  · rw [dijkstra_def, dijkstraFrom_reachable _ _ _ _ _ _ _ _ hd]
    intro a b hab
    obtain ⟨r, hpar, horig⟩ := reconAux_edges_parent _ s _ d [d] bS (by simp)
      (by intro a' b' h'; simp [pathEdges_single] at h') a b hab
    rw [← horig]
    exact hOinv b r hpar

theorem dijkstra_path_origins_unblocked_witness :
    GraphWF sampleGraph ∧
      ∀ a b, (a, b) ∈ pathEdges (dijkstra sampleGraph 1 3 true [3] []).1.1 →
        a ∉ ([3] : List Int) :=
  ⟨by decide, dijkstra_path_origins_unblocked sampleGraph 1 3 true [3] [] (by decide)⟩

/-- Claim C4 is refuted by the code: on the sample network, a query
whose destination `3` is blocked still returns the non-empty path
`[1, 2, 3]` with cost `9`, because blocked nodes are skipped only when
popped and can still be relaxed into. -/
theorem dijkstra_blocked_destination_counterexample :
    (3 : Int) ∈ ([3] : List Int) ∧
      (dijkstra sampleGraph 1 3 true [3] []).1 = ([1, 2, 3], 9) ∧
      (dijkstra sampleGraph 1 3 true [3] []).1.1 ≠ [] := by decide

theorem mem_idsOf_iff (g : GraphT) (v : Int) :
    v ∈ idsOf g ↔ ∃ l ∈ g.locations, l.id = v := by
  unfold idsOf
  simp [List.mem_map]

theorem initDist_mem (pd : Int → Nat) (g : GraphT) (s v : Int) (hv : v ∈ idsOf g) :
    initDist pd g s v = if v = s then 0 else INF := by
  unfold initDist
  by_cases hvs : v = s
  · subst hvs
    rw [fupd_same, if_pos rfl]
  · rw [fupd_other _ _ _ _ hvs, foldl_fupd_const, if_pos, if_neg hvs]
    obtain ⟨l, hl, hid⟩ := (mem_idsOf_iff g v).mp hv
    exact ⟨l, hl, hid⟩

theorem initParent_mem (pp : Int → Option RoadT) (g : GraphT) (v : Int)
    (hv : v ∈ idsOf g) : initParent pp g v = none := by
  unfold initParent
  rw [foldl_fupd_const, if_pos]
  obtain ⟨l, hl, hid⟩ := (mem_idsOf_iff g v).mp hv
  exact ⟨l, hl, hid⟩

/-- Two searches agree on everything a well-formed run can observe:
the node state of every location and the whole frontier. -/
def AgreeOn (g : GraphT) (st st' : DState) : Prop :=
  (∀ v ∈ idsOf g, st.dist v = st'.dist v) ∧
  (∀ v ∈ idsOf g, st.parent v = st'.parent v) ∧
  st.pq = st'.pq

/-- Every frontier entry names a location of the graph. -/
def PQIn (g : GraphT) (st : DState) : Prop := ∀ p ∈ st.pq, p.2 ∈ idsOf g

theorem relax1_congr (g : GraphT) (m : Bool) (bS bS' : List (Int × Int))
    (hbs : ∀ p : Int × Int, p ∈ bS ↔ p ∈ bS') (v : Int) (d : Nat)
    (st st' : DState) (r : RoadT) (hdest : r.dest ∈ idsOf g)
    (hag : AgreeOn g st st') :
    AgreeOn g (relax1 m bS v d st r) (relax1 m bS' v d st' r) := by
  obtain ⟨hdist, hpar, hpq⟩ := hag
  unfold relax1
  by_cases h1 : weightOf m r = INF
  · rw [if_pos h1, if_pos h1]
    exact ⟨hdist, hpar, hpq⟩
  · rw [if_neg h1, if_neg h1]
    by_cases h2 : (v, r.dest) ∈ bS
    · rw [if_pos h2, if_pos ((hbs _).mp h2)]
      exact ⟨hdist, hpar, hpq⟩
    · rw [if_neg h2, if_neg (fun hx => h2 ((hbs _).mpr hx))]
      rw [← hdist r.dest hdest]
      by_cases h3 : d + weightOf m r < st.dist r.dest
      · rw [if_pos h3, if_pos h3]
        refine ⟨?_, ?_, ?_⟩
        · intro u hu
          dsimp only
          by_cases hur : u = r.dest
          · subst hur
            rw [fupd_same, fupd_same]
          · rw [fupd_other _ _ _ _ hur, fupd_other _ _ _ _ hur]
            exact hdist u hu
        · intro u hu
          dsimp only
          by_cases hur : u = r.dest
          · subst hur
            rw [fupd_same, fupd_same]
          · rw [fupd_other _ _ _ _ hur, fupd_other _ _ _ _ hur]
            exact hpar u hu
        · dsimp only
          rw [hpq]
      · rw [if_neg h3, if_neg h3]
        exact ⟨hdist, hpar, hpq⟩

theorem mem_pqInsert (x p : Nat × Int) :
    ∀ l : List (Nat × Int), p ∈ pqInsert x l → p = x ∨ p ∈ l := by
  intro l
  induction l with
  | nil =>
    intro hp
    simpa [pqInsert] using hp
  | cons y ys ih =>
    intro hp
    unfold pqInsert at hp
    by_cases hle : pqLe x y = true
    · rw [if_pos hle] at hp
      rcases List.mem_cons.mp hp with h1 | h1
      · exact Or.inl h1
      · exact Or.inr h1
    · rw [if_neg hle] at hp
      rcases List.mem_cons.mp hp with h1 | h1
      · exact Or.inr (h1 ▸ List.mem_cons_self _ _)
      · rcases ih h1 with h2 | h2
        · exact Or.inl h2
        · exact Or.inr (List.mem_cons_of_mem _ h2)

theorem relax1_pqIn (g : GraphT) (m : Bool) (bS : List (Int × Int)) (v : Int) (d : Nat)
    (st : DState) (r : RoadT) (hdest : r.dest ∈ idsOf g) (h : PQIn g st) :
    PQIn g (relax1 m bS v d st r) := by
  rcases relax1_cases m bS v d st r with heq | ⟨_, _, _, heq⟩ <;> rw [heq]
  · exact h
  · intro p hp
    dsimp only at hp
    rcases mem_pqInsert _ p st.pq hp with rfl | hmem
    · exact hdest
    · exact h p hmem

theorem relaxAll_congr (g : GraphT) (m : Bool) (bS bS' : List (Int × Int))
    (hbs : ∀ p : Int × Int, p ∈ bS ↔ p ∈ bS') :
    ∀ (rs : List RoadT) (v : Int) (d : Nat) (st st' : DState),
      (∀ r ∈ rs, r.dest ∈ idsOf g) → AgreeOn g st st' → PQIn g st →
      AgreeOn g (relaxAll m bS v d rs st) (relaxAll m bS' v d rs st') ∧
        PQIn g (relaxAll m bS v d rs st) := by
  intro rs
  induction rs with
  | nil => intro v d st st' _ hag hpq; exact ⟨hag, hpq⟩
  | cons r rs ih =>
    intro v d st st' hsub hag hpq
    rw [relaxAll_cons, relaxAll_cons]
    exact ih v d _ _ (fun r' hr' => hsub r' (List.mem_cons_of_mem _ hr'))
      (relax1_congr g m bS bS' hbs v d st st' r (hsub r (List.mem_cons_self _ _)) hag)
      (relax1_pqIn g m bS v d st r (hsub r (List.mem_cons_self _ _)) hpq)

theorem dloop_congr (g : GraphT) (m : Bool) (bN : List Int) (bS bS' : List (Int × Int))
    (hwf : GraphWF g) (hbs : ∀ p : Int × Int, p ∈ bS ↔ p ∈ bS') :
    ∀ (fuel : Nat) (st st' : DState), AgreeOn g st st' → PQIn g st →
      AgreeOn g (dloop g m bN bS fuel st) (dloop g m bN bS' fuel st') ∧
        PQIn g (dloop g m bN bS fuel st) := by
  intro fuel
  induction fuel with
  | zero => intro st st' hag hpq; exact ⟨hag, hpq⟩
  | succ fuel ih =>
    intro st st' hag hpq
    obtain ⟨hdist, hpar, hpqeq⟩ := hag
    cases hpq2 : st.pq with
    | nil =>
      have hpq2' : st'.pq = [] := by rw [← hpqeq, hpq2]
      simp only [dloop, hpq2, hpq2']
      exact ⟨⟨hdist, hpar, by rw [hpqeq]⟩, hpq⟩
    | cons hd rest =>
      obtain ⟨d, v⟩ := hd
      have hpq2' : st'.pq = (d, v) :: rest := by rw [← hpqeq, hpq2]
      have hv : v ∈ idsOf g := hpq (d, v) (by rw [hpq2]; exact List.mem_cons_self _ _)
      have hrest : PQIn g { st with pq := rest } := by
        intro p hp
        exact hpq p (by rw [hpq2]; exact List.mem_cons_of_mem _ hp)
      have hagrest : AgreeOn g { st with pq := rest } { st' with pq := rest } :=
        ⟨hdist, hpar, rfl⟩
      by_cases hstale : d > st.dist v
      · have hstale' : d > st'.dist v := by rw [← hdist v hv]; exact hstale
        simpa [dloop, hpq2, hpq2', hstale, hstale'] using ih _ _ hagrest hrest
      · have hstale' : ¬ d > st'.dist v := by rw [← hdist v hv]; exact hstale
        by_cases hbn : v ∈ bN
        · simpa [dloop, hpq2, hpq2', hstale, hstale', hbn] using ih _ _ hagrest hrest
        · have hsub : ∀ r ∈ adjOf g v, r.dest ∈ idsOf g :=
            fun r hr => (adjOf_spec g hwf v r hr).2.1
          obtain ⟨hag2, hpq3⟩ := relaxAll_congr g m bS bS' hbs (adjOf g v) v d
            { st with pq := rest } { st' with pq := rest } hsub hagrest hrest
          simpa [dloop, hpq2, hpq2', hstale, hstale', hbn] using ih _ _ hag2 hpq3

/-- In the loop's final state of a well-formed run, the parent of any
location of the graph is an edge originating at a location of the
graph. -/
theorem dijkstra_parentOrig_mem (pd : Int → Nat) (pp : Int → Option RoadT) (g : GraphT)
    (s : Int) (m : Bool) (bN : List Int) (bS : List (Int × Int)) (hwf : GraphWF g) :
    ∀ v ∈ idsOf g, ∀ r,
      (dloopFinal pd pp g s m bN bS).parent v = some r → r.orig ∈ idsOf g := by
  unfold dloopFinal
  apply dloop_pres_dp2 g m bN bS
    (fun _ p => ∀ v ∈ idsOf g, ∀ r, p v = some r → r.orig ∈ idsOf g)
  · intro v d st r hadj hbn h
    rcases relax1_cases m bS v d st r with heq | ⟨_, _, _, heq⟩ <;> rw [heq]
    · exact h
    · intro u hu r' hr'
      dsimp only at hr'
      by_cases hur : u = r.dest
      · subst hur
        rw [fupd_same] at hr'
        cases hr'
        obtain ⟨ho, _, loc, hloc, hid, _⟩ := adjOf_spec g hwf v r hadj
        rw [ho, ← hid]
        exact List.mem_map_of_mem _ hloc
      · rw [fupd_other _ _ _ _ hur] at hr'
        exact h u hu r' hr'
  · intro v hv r hr
    dsimp only at hr
    rw [initParent_mem pp g v hv] at hr
    cases hr

theorem reconAux_congr (g : GraphT) (par par' : Int → Option RoadT) (src : Int)
    (hagree : ∀ v ∈ idsOf g, par v = par' v)
    (horig : ∀ v ∈ idsOf g, ∀ r, par v = some r → r.orig ∈ idsOf g) :
    ∀ (fuel : Nat) (v : Int) (path : List Int) (segs segs' : List (Int × Int)),
      v ∈ idsOf g →
      (reconAux par src fuel v path segs).1 = (reconAux par' src fuel v path segs').1 := by
  intro fuel
  induction fuel with
  | zero => intro v path segs segs' _; rfl
  | succ fuel ih =>
    intro v path segs segs' hv
    cases hpv : par v with
    | none =>
      have hpv' : par' v = none := by rw [← hagree v hv, hpv]
      unfold reconAux
      rw [hpv, hpv']
    | some r =>
      have hpv' : par' v = some r := by rw [← hagree v hv, hpv]
      by_cases hvs : v = src
      · unfold reconAux
        rw [hpv, hpv']
        simp [hvs]
      · have h1 : reconAux par src (fuel + 1) v path segs =
            reconAux par src fuel r.orig (path ++ [r.orig])
              (segInsert (r.orig, r.dest) segs) := by
          simp [reconAux, hpv, hvs]
        have h2 : reconAux par' src (fuel + 1) v path segs' =
            reconAux par' src fuel r.orig (path ++ [r.orig])
              (segInsert (r.orig, r.dest) segs') := by
          simp [reconAux, hpv', hvs]
        rw [h1, h2]
        exact ih r.orig _ _ _ (horig v hv r hpv)

/-- Claim C8: the result (path and total cost) of `dijkstra` depends
only on its inputs: two calls on a well-formed graph with arbitrary,
possibly different residual node state from earlier searches, and with
separately constructed blocked-segment sets holding the same members,
return the same path and the same total cost. -/
theorem dijkstra_independent_of_residual_state (g : GraphT) (s d : Int) (m : Bool)
    (bN : List Int) (pd pd' : Int → Nat) (pp pp' : Int → Option RoadT)
    (bS bS' : List (Int × Int)) (hwf : GraphWF g) (hs : s ∈ idsOf g) (hd : d ∈ idsOf g)
    (hbs : ∀ p : Int × Int, p ∈ bS ↔ p ∈ bS') :
    (dijkstraFrom pd pp g s d m bN bS).1 = (dijkstraFrom pd' pp' g s d m bN bS').1 := by
  have hinit : AgreeOn g ⟨initDist pd g s, initParent pp g, [(0, s)]⟩
      ⟨initDist pd' g s, initParent pp' g, [(0, s)]⟩ := by
    refine ⟨?_, ?_, rfl⟩
    · intro v hv
      dsimp only
      rw [initDist_mem pd g s v hv, initDist_mem pd' g s v hv]
    · intro v hv
      dsimp only
      rw [initParent_mem pp g v hv, initParent_mem pp' g v hv]
  have hpq0 : PQIn g (⟨initDist pd g s, initParent pp g, [(0, s)]⟩ : DState) := by
    intro p hp
    rcases List.mem_singleton.mp hp with rfl
    exact hs
  obtain ⟨⟨hdist, hpar, _⟩, _⟩ := dloop_congr g m bN bS bS' hwf hbs
    (g.locations.length * INF + 2) _ _ hinit hpq0
  have hdisteq : (dloopFinal pd pp g s m bN bS).dist d =
      (dloopFinal pd' pp' g s m bN bS').dist d := hdist d hd
  by_cases hinf : (dloopFinal pd pp g s m bN bS).dist d = INF
  · rw [dijkstraFrom_unreachable _ _ _ _ _ _ _ _ hinf,
      dijkstraFrom_unreachable _ _ _ _ _ _ _ _ (by rw [← hdisteq]; exact hinf)]
  · have hinf' : ¬ (dloopFinal pd' pp' g s m bN bS').dist d = INF := by
      rw [← hdisteq]
      exact hinf
    rw [dijkstraFrom_reachable _ _ _ _ _ _ _ _ hinf,
      dijkstraFrom_reachable _ _ _ _ _ _ _ _ hinf']
    have hrec := reconAux_congr g (dloopFinal pd pp g s m bN bS).parent
      (dloopFinal pd' pp' g s m bN bS').parent s hpar
      (dijkstra_parentOrig_mem pd pp g s m bN bS hwf)
      (g.locations.length + 1) d [d] bS bS' hd
    rw [Prod.mk.injEq]
    exact ⟨by rw [hrec], hdisteq⟩

theorem dijkstra_independent_of_residual_state_witness :
    GraphWF sampleGraph ∧ (1 : Int) ∈ idsOf sampleGraph ∧ (3 : Int) ∈ idsOf sampleGraph ∧
      (∀ p : Int × Int, p ∈ [((2 : Int), (3 : Int)), (2, 3)] ↔ p ∈ [((2 : Int), (3 : Int))]) ∧
      (dijkstraFrom (fun _ => 7) (fun _ => some ⟨5, 5, 5, 5⟩) sampleGraph 1 3 true []
          [(2, 3), (2, 3)]).1 =
        (dijkstraFrom (fun _ => INF) (fun _ => none) sampleGraph 1 3 true [] [(2, 3)]).1 :=
  ⟨by decide, by decide, by decide, by intro p; simp,
    dijkstra_independent_of_residual_state sampleGraph 1 3 true [] (fun _ => 7)
      (fun _ => INF) (fun _ => some ⟨5, 5, 5, 5⟩) (fun _ => none) [(2, 3), (2, 3)] [(2, 3)]
      (by decide) (by decide) (by decide) (by intro p; simp)⟩

/-- A chain of parent edges from `v` back to the source along which the
tentative distance never increases.  The relation is preserved by every
relaxation and guarantees that, at any time, following parents from a
finite-distance node reaches the source. -/
inductive PChain (par : Int → Option RoadT) (dist : Int → Nat) (src : Int) : Int → Prop
  | base : PChain par dist src src
  | step (v : Int) (r : RoadT) : par v = some r → dist r.orig ≤ dist v →
      PChain par dist src r.orig → PChain par dist src v

/-- A parent chain survives an update at a node of strictly larger
distance than the chain's top: no chain node can be the updated one. -/
theorem PChain_update_above (par : Int → Option RoadT) (dist : Int → Nat) (src : Int)
    (v0 : Int) (r0 : Option RoadT) (n0 : Nat) :
    ∀ u, PChain par dist src u → dist u < dist v0 →
      PChain (fupd par v0 r0) (fupd dist v0 n0) src u := by
  intro u h
  induction h with
  | base => intro _; exact PChain.base
  | step v r hpar hle hch ih =>
    intro hgt
    have hvne : v ≠ v0 := fun he => absurd (he ▸ hgt) (lt_irrefl _)
    have hone : r.orig ≠ v0 := by
      intro he
      have : dist r.orig < dist v0 := lt_of_le_of_lt hle hgt
      rw [he] at this
      exact absurd this (lt_irrefl _)
    refine PChain.step v r ?_ ?_ (ih (lt_of_le_of_lt hle hgt))
    · rw [fupd_other _ _ _ _ hvne]
      exact hpar
    · rw [fupd_other _ _ _ _ hvne, fupd_other _ _ _ _ hone]
      exact hle

/-- A parent chain survives an update that strictly decreases the
distance of the updated node, provided the updated node itself has a
chain in the new state: chains through the updated node re-route. -/
theorem PChain_update_below (par : Int → Option RoadT) (dist : Int → Nat) (src : Int)
    (v0 : Int) (r0 : Option RoadT) (n0 : Nat) (hlt : n0 < dist v0)
    (hv0 : PChain (fupd par v0 r0) (fupd dist v0 n0) src v0) :
    ∀ u, PChain par dist src u →
      PChain (fupd par v0 r0) (fupd dist v0 n0) src u := by
  intro u h
  induction h with
  | base => exact PChain.base
  | step v r hpar hle hch ih =>
    by_cases hv : v = v0
    · subst hv
      exact hv0
    · refine PChain.step v r ?_ ?_ ih
      · rw [fupd_other _ _ _ _ hv]
        exact hpar
      · rw [fupd_other _ _ _ _ hv]
        by_cases ho : r.orig = v0
        · rw [ho, fupd_same]
          calc n0 ≤ dist v0 := le_of_lt hlt
            _ = dist r.orig := by rw [ho]
            _ ≤ dist v := hle
        · rw [fupd_other _ _ _ _ ho]
          exact hle

/-- One step of the reconstruction walk: move to the parent edge's
origin (identity if there is no parent). -/
def parStep (par : Int → Option RoadT) (v : Int) : Int :=
  match par v with
  | some r => r.orig
  | none => v

theorem PChain_reaches (par : Int → Option RoadT) (dist : Int → Nat) (src : Int) :
    ∀ u, PChain par dist src u → ∃ n, (parStep par)^[n] u = src := by
  intro u h
  induction h with
  | base => exact ⟨0, rfl⟩
  | step v r hpar _ _ ih =>
    obtain ⟨n, hn⟩ := ih
    refine ⟨n + 1, ?_⟩
    rw [Function.iterate_succ_apply]
    have : parStep par v = r.orig := by
      unfold parStep
      rw [hpar]
    rw [this]
    exact hn

theorem iterate_mod_period {α : Type} (f : α → α) (y : α) (p : Nat) (hp : 0 < p)
    (hper : f^[p] y = y) : ∀ t, f^[t] y = f^[t % p] y := by
  intro t
  induction t using Nat.strong_induction_on with
  | _ t ih =>
    by_cases ht : t < p
    · rw [Nat.mod_eq_of_lt ht]
    · push_neg at ht
      have h1 : t = (t - p) + p := by omega
      rw [h1, Function.iterate_add_apply, hper, ih (t - p) (by omega)]
      congr 1
      rw [Nat.sub_add_cancel ht]
      exact (Nat.mod_eq_sub_mod ht).symm

/-- Along the walk to the first hit of the source, all nodes are
pairwise distinct: a repetition would make the walk periodic and place
the source strictly earlier than its first hit. -/
theorem first_hit_inj (par : Int → Option RoadT) (v src : Int) (k : Nat)
    (hk : (parStep par)^[k] v = src)
    (hmin : ∀ n < k, (parStep par)^[n] v ≠ src) :
    ∀ i j, i ≤ k → j ≤ k → (parStep par)^[i] v = (parStep par)^[j] v → i = j := by
  have key : ∀ i j, i < j → j ≤ k → (parStep par)^[i] v = (parStep par)^[j] v → False := by
    intro i j hij hjk heq
    set f := parStep par
    have hp : 0 < j - i := by omega
    have hper : f^[j - i] (f^[i] v) = f^[i] v := by
      rw [← Function.iterate_add_apply]
      rw [show j - i + i = j from by omega]
      exact heq.symm
    have hsrc : f^[k] v = f^[(k - i) % (j - i) + i] v := by
      have h2 : f^[k] v = f^[k - i] (f^[i] v) := by
        rw [← Function.iterate_add_apply]
        congr 1
        omega
      rw [h2, iterate_mod_period f (f^[i] v) (j - i) hp hper (k - i),
        ← Function.iterate_add_apply]
    have hlt : (k - i) % (j - i) + i < k := by
      have := Nat.mod_lt (k - i) hp
      omega
    exact hmin _ hlt (by rw [← hsrc]; exact hk)
  intro i j hi hj heq
  rcases lt_trichotomy i j with h | h | h
  · exact absurd (key i j h hj heq) (fun x => x)
  · exact h
  · exact absurd (key j i h hi heq.symm) (fun x => x)

theorem mem_pqInsert_self (x : Nat × Int) : ∀ l : List (Nat × Int), x ∈ pqInsert x l := by
  intro l
  induction l with
  | nil => exact List.mem_singleton_self _
  | cons y ys ih =>
    unfold pqInsert
    by_cases hle : pqLe x y = true
    · rw [if_pos hle]
      exact List.mem_cons_self _ _
    · rw [if_neg hle]
      exact List.mem_cons_of_mem _ ih

theorem mem_pqInsert_of_mem (x p : Nat × Int) :
    ∀ l : List (Nat × Int), p ∈ l → p ∈ pqInsert x l := by
  intro l
  induction l with
  | nil => intro hp; cases hp
  | cons y ys ih =>
    intro hp
    unfold pqInsert
    by_cases hle : pqLe x y = true
    · rw [if_pos hle]
      exact List.mem_cons_of_mem _ hp
    · rw [if_neg hle]
      rcases List.mem_cons.mp hp with rfl | hp2
      · exact List.mem_cons_self _ _
      · exact List.mem_cons_of_mem _ (ih hp2)

theorem relax1_cases_full (m : Bool) (bS : List (Int × Int)) (v : Int) (d : Nat)
    (st : DState) (r : RoadT) :
    (weightOf m r = INF ∧ relax1 m bS v d st r = st) ∨
    ((v, r.dest) ∈ bS ∧ relax1 m bS v d st r = st) ∨
    (weightOf m r ≠ INF ∧ (v, r.dest) ∉ bS ∧ ¬ d + weightOf m r < st.dist r.dest ∧
      relax1 m bS v d st r = st) ∨
    (weightOf m r ≠ INF ∧ (v, r.dest) ∉ bS ∧ d + weightOf m r < st.dist r.dest ∧
      relax1 m bS v d st r =
        { dist := fupd st.dist r.dest (d + weightOf m r)
          parent := fupd st.parent r.dest (some r)
          pq := pqInsert (d + weightOf m r, r.dest) st.pq }) := by
  unfold relax1
  by_cases h1 : weightOf m r = INF
  · exact Or.inl ⟨h1, by rw [if_pos h1]⟩
  · by_cases h2 : (v, r.dest) ∈ bS
    · exact Or.inr (Or.inl ⟨h2, by rw [if_neg h1, if_pos h2]⟩)
    · by_cases h3 : d + weightOf m r < st.dist r.dest
      · exact Or.inr (Or.inr (Or.inr ⟨h1, h2, h3, by rw [if_neg h1, if_neg h2, if_pos h3]⟩))
      · exact Or.inr (Or.inr (Or.inl ⟨h1, h2, h3, by rw [if_neg h1, if_neg h2, if_neg h3]⟩))

/-- All the facts maintained by the main loop about distances, parents
and the frontier, except the settledness of processed nodes. -/
structure CoreInv (g : GraphT) (src : Int) (m : Bool) (bN : List Int)
    (bS : List (Int × Int)) (st : DState) : Prop where
  distLe : ∀ v, st.dist v ≤ INF
  distSrc : st.dist src = 0
  parDest : ∀ v r, st.parent v = some r → r.dest = v
  parRoad : ∀ v r, st.parent v = some r →
    ∃ loc ∈ g.locations, loc.id = r.orig ∧ r ∈ loc.adj
  parW : ∀ v r, st.parent v = some r → weightOf m r ≠ INF
  parNb : ∀ v r, st.parent v = some r → r.orig ∉ bN
  parNs : ∀ v r, st.parent v = some r → (r.orig, r.dest) ∉ bS
  parLe : ∀ v r, st.parent v = some r → st.dist r.orig + weightOf m r ≤ st.dist v
  parFin : ∀ v r, st.parent v = some r → st.dist v < INF
  pqGe : ∀ p ∈ st.pq, st.dist p.2 ≤ p.1 ∧ p.1 < INF
  finPar : ∀ v, st.dist v < INF → v = src ∨ st.parent v ≠ none
  finChain : ∀ v, st.dist v < INF → PChain st.parent st.dist src v

/-- A node is settled when each of its usable outgoing edges has been
relaxed against its current distance. -/
def SettledAt (g : GraphT) (m : Bool) (bS : List (Int × Int)) (st : DState) (u : Int) :
    Prop :=
  ∀ r ∈ adjOf g u, weightOf m r ≠ INF → (u, r.dest) ∉ bS →
    st.dist r.dest ≤ st.dist u + weightOf m r

/-- The whole loop invariant: the core facts, plus every unblocked
finite-distance node either still has its current distance pending on
the frontier or is settled. -/
def DInv (g : GraphT) (src : Int) (m : Bool) (bN : List Int) (bS : List (Int × Int))
    (st : DState) : Prop :=
  CoreInv g src m bN bS st ∧
    ∀ u, u ∉ bN → st.dist u < INF →
      (st.dist u, u) ∈ st.pq ∨ SettledAt g m bS st u

theorem relax1_core (g : GraphT) (src : Int) (m : Bool) (bN : List Int)
    (bS : List (Int × Int)) (hwf : GraphWF g) (v : Int) (d : Nat) (st : DState)
    (r : RoadT) (hr : r ∈ adjOf g v) (hvbn : v ∉ bN) (hdv : st.dist v = d)
    (hcore : CoreInv g src m bN bS st) :
    CoreInv g src m bN bS (relax1 m bS v d st r) ∧
      (relax1 m bS v d st r).dist v = d ∧
      (∀ x, (relax1 m bS v d st r).dist x ≤ st.dist x) ∧
      (∀ p ∈ st.pq, p ∈ (relax1 m bS v d st r).pq) := by
  rcases relax1_cases_full m bS v d st r with ⟨_, heq⟩ | ⟨_, heq⟩ | ⟨_, _, _, heq⟩ |
    ⟨hW, hS, hlt, heq⟩
  · rw [heq]
    exact ⟨hcore, hdv, fun x => le_refl _, fun p hp => hp⟩
  · rw [heq]
    exact ⟨hcore, hdv, fun x => le_refl _, fun p hp => hp⟩
  · rw [heq]
    exact ⟨hcore, hdv, fun x => le_refl _, fun p hp => hp⟩
  · obtain ⟨horig, hdid, loc, hloc, hlid, hradj⟩ := adjOf_spec g hwf v r hr
    have hdw : d + weightOf m r < INF := lt_of_lt_of_le hlt (hcore.distLe _)
    have hne_v : r.dest ≠ v := by
      intro he
      rw [he, hdv] at hlt
      omega
    have hne_src : r.dest ≠ src := by
      intro he
      rw [he, hcore.distSrc] at hlt
      omega
    have hfin_v : st.dist v < INF := by
      rw [hdv]
      omega
    have hmono : ∀ x, (relax1 m bS v d st r).dist x ≤ st.dist x := by
      intro x
      rw [heq]
      dsimp only
      by_cases hx : x = r.dest
      · subst hx
        rw [fupd_same]
        exact le_of_lt hlt
      · rw [fupd_other _ _ _ _ hx]
    have hdv' : (relax1 m bS v d st r).dist v = d := by
      rw [heq]
      dsimp only
      rw [fupd_other _ _ _ _ (Ne.symm hne_v)]
      exact hdv
    refine ⟨?_, hdv', hmono, ?_⟩
    · rw [heq]
      have hchain_v : PChain (fupd st.parent r.dest (some r))
          (fupd st.dist r.dest (d + weightOf m r)) src v := by
        apply PChain_update_above st.parent st.dist src r.dest (some r)
          (d + weightOf m r) v (hcore.finChain v hfin_v)
        rw [hdv]
        omega
      have hchain_v0 : PChain (fupd st.parent r.dest (some r))
          (fupd st.dist r.dest (d + weightOf m r)) src r.dest := by
        refine PChain.step r.dest r (fupd_same _ _ _) ?_ ?_
        · rw [fupd_same, horig, fupd_other _ _ _ _ (Ne.symm hne_v), hdv]
          omega
        · rw [horig]
          exact hchain_v
      refine ⟨?_, ?_, ?_, ?_, ?_, ?_, ?_, ?_, ?_, ?_, ?_, ?_⟩
      · intro x
        dsimp only
        by_cases hx : x = r.dest
        · subst hx
          rw [fupd_same]
          exact le_of_lt (lt_of_lt_of_le hlt (hcore.distLe _))
        · rw [fupd_other _ _ _ _ hx]
          exact hcore.distLe x
      · dsimp only
        rw [fupd_other _ _ _ _ (Ne.symm hne_src)]
        exact hcore.distSrc
      · intro u r' hr'
        dsimp only at hr' ⊢
        by_cases hu : u = r.dest
        · subst hu
          rw [fupd_same] at hr'
          cases hr'
          rfl
        · rw [fupd_other _ _ _ _ hu] at hr'
          exact hcore.parDest u r' hr'
      · intro u r' hr'
        dsimp only at hr'
        by_cases hu : u = r.dest
        · subst hu
          rw [fupd_same] at hr'
          cases hr'
          exact ⟨loc, hloc, hlid.trans horig.symm, hradj⟩
        · rw [fupd_other _ _ _ _ hu] at hr'
          exact hcore.parRoad u r' hr'
      · intro u r' hr'
        dsimp only at hr'
        by_cases hu : u = r.dest
        · subst hu
          rw [fupd_same] at hr'
          cases hr'
          exact hW
        · rw [fupd_other _ _ _ _ hu] at hr'
          exact hcore.parW u r' hr'
      · intro u r' hr'
        dsimp only at hr'
        by_cases hu : u = r.dest
        · subst hu
          rw [fupd_same] at hr'
          cases hr'
          rw [horig]
          exact hvbn
        · rw [fupd_other _ _ _ _ hu] at hr'
          exact hcore.parNb u r' hr'
      · intro u r' hr'
        dsimp only at hr'
        by_cases hu : u = r.dest
        · subst hu
          rw [fupd_same] at hr'
          cases hr'
          rw [horig]
          exact hS
        · rw [fupd_other _ _ _ _ hu] at hr'
          exact hcore.parNs u r' hr'
      · intro u r' hr'
        dsimp only at hr' ⊢
        by_cases hu : u = r.dest
        · subst hu
          rw [fupd_same] at hr'
          cases hr'
          rw [fupd_same, horig, fupd_other _ _ _ _ (Ne.symm hne_v), hdv]
        · rw [fupd_other _ _ _ _ hu] at hr'
          rw [fupd_other _ _ _ _ hu]
          by_cases ho : r'.orig = r.dest
          · rw [ho, fupd_same]
            have h1 := hcore.parLe u r' hr'
            rw [ho] at h1
            omega
          · rw [fupd_other _ _ _ _ ho]
            exact hcore.parLe u r' hr'
      · intro u r' hr'
        dsimp only at hr' ⊢
        by_cases hu : u = r.dest
        · subst hu
          rw [fupd_same] at hr' ⊢
          exact lt_of_lt_of_le hlt (hcore.distLe _)
        · rw [fupd_other _ _ _ _ hu] at hr' ⊢
          exact hcore.parFin u r' hr'
      · intro p hp
        dsimp only at hp ⊢
        rcases mem_pqInsert _ p _ hp with rfl | hmem
        · dsimp only
          rw [fupd_same]
          exact ⟨le_refl _, hdw⟩
        · obtain ⟨h1, h2⟩ := hcore.pqGe p hmem
          refine ⟨?_, h2⟩
          by_cases hpd : p.2 = r.dest
          · rw [hpd, fupd_same]
            rw [hpd] at h1
            omega
          · rw [fupd_other _ _ _ _ hpd]
            exact h1
      · intro u hu
        dsimp only at hu ⊢
        by_cases hud : u = r.dest
        · subst hud
          right
          rw [fupd_same]
          exact Option.some_ne_none _
        · rw [fupd_other _ _ _ _ hud] at hu
          rcases hcore.finPar u hu with h1 | h1
          · exact Or.inl h1
          · right
            rw [fupd_other _ _ _ _ hud]
            exact h1
      · intro u hu
        dsimp only at hu ⊢
        by_cases hud : u = r.dest
        · subst hud
          exact hchain_v0
        · rw [fupd_other _ _ _ _ hud] at hu
          exact PChain_update_below st.parent st.dist src r.dest (some r)
            (d + weightOf m r) hlt hchain_v0 u (hcore.finChain u hu)
    · intro p hp
      rw [heq]
      dsimp only
      exact mem_pqInsert_of_mem _ _ _ hp

theorem CoreInv_pq_tail (g : GraphT) (src : Int) (m : Bool) (bN : List Int)
    (bS : List (Int × Int)) (st : DState) (rest : List (Nat × Int))
    (hsub : ∀ p ∈ rest, p ∈ st.pq)
    (hcore : CoreInv g src m bN bS st) :
    CoreInv g src m bN bS { st with pq := rest } := by
  refine ⟨hcore.distLe, hcore.distSrc, hcore.parDest, hcore.parRoad, hcore.parW,
    hcore.parNb, hcore.parNs, hcore.parLe, hcore.parFin, ?_, hcore.finPar,
    hcore.finChain⟩
  intro p hp
  exact hcore.pqGe p (hsub p hp)

theorem relaxAll_DInv (g : GraphT) (src : Int) (m : Bool) (bN : List Int)
    (bS : List (Int × Int)) (hwf : GraphWF g) (v : Int) (d : Nat) (hvbn : v ∉ bN) :
    ∀ (rs : List RoadT) (st : DState),
      (∀ r ∈ rs, r ∈ adjOf g v) →
      CoreInv g src m bN bS st →
      st.dist v = d →
      (∀ u, u ∉ bN → st.dist u < INF → u ≠ v →
        ((st.dist u, u) ∈ st.pq ∨ SettledAt g m bS st u)) →
      CoreInv g src m bN bS (relaxAll m bS v d rs st) ∧
        (relaxAll m bS v d rs st).dist v = d ∧
        (∀ x, (relaxAll m bS v d rs st).dist x ≤ st.dist x) ∧
        (∀ u, u ∉ bN → (relaxAll m bS v d rs st).dist u < INF → u ≠ v →
          (((relaxAll m bS v d rs st).dist u, u) ∈ (relaxAll m bS v d rs st).pq ∨
            SettledAt g m bS (relaxAll m bS v d rs st) u)) ∧
        (∀ r ∈ rs, weightOf m r ≠ INF → (v, r.dest) ∉ bS →
          (relaxAll m bS v d rs st).dist r.dest ≤ d + weightOf m r) := by
  intro rs
  induction rs with
  | nil =>
    intro st _ hcore hdv hoth
    rw [relaxAll_nil]
    exact ⟨hcore, hdv, fun x => le_refl _, hoth, fun r hr => absurd hr (List.not_mem_nil _)⟩
  | cons r rs ih =>
    intro st hsub hcore hdv hoth
    rw [relaxAll_cons]
    obtain ⟨hcore1, hdv1, hmono1, hpq1⟩ :=
      relax1_core g src m bN bS hwf v d st r (hsub r (List.mem_cons_self _ _)) hvbn hdv hcore
    have hoth1 : ∀ u, u ∉ bN → (relax1 m bS v d st r).dist u < INF → u ≠ v →
        (((relax1 m bS v d st r).dist u, u) ∈ (relax1 m bS v d st r).pq ∨
          SettledAt g m bS (relax1 m bS v d st r) u) := by
      intro u hu hfin hune
      rcases relax1_cases_full m bS v d st r with ⟨_, heq⟩ | ⟨_, heq⟩ | ⟨_, _, _, heq⟩ |
        ⟨hW, hS, hlt, heq⟩
      · rw [heq] at hfin ⊢
        exact hoth u hu hfin hune
      · rw [heq] at hfin ⊢
        exact hoth u hu hfin hune
      · rw [heq] at hfin ⊢
        exact hoth u hu hfin hune
      · by_cases hud : u = r.dest
        · subst hud
          left
          rw [heq]
          dsimp only
          rw [fupd_same]
          exact mem_pqInsert_self _ _
        · have hdu : (relax1 m bS v d st r).dist u = st.dist u := by
            rw [heq]
            dsimp only
            rw [fupd_other _ _ _ _ hud]
          rw [hdu] at hfin ⊢
          rcases hoth u hu hfin hune with h1 | h1
          · left
            exact hpq1 _ h1
          · right
            intro r' hr' hw' hs'
            calc (relax1 m bS v d st r).dist r'.dest ≤ st.dist r'.dest := hmono1 _
              _ ≤ st.dist u + weightOf m r' := h1 r' hr' hw' hs'
              _ = (relax1 m bS v d st r).dist u + weightOf m r' := by rw [hdu]
    obtain ⟨hcoreF, hdvF, hmonoF, hothF, hprocF⟩ := ih (relax1 m bS v d st r)
      (fun r' hr' => hsub r' (List.mem_cons_of_mem _ hr')) hcore1 hdv1 hoth1
    refine ⟨hcoreF, hdvF, ?_, hothF, ?_⟩
    · intro x
      exact le_trans (hmonoF x) (hmono1 x)
    · intro r' hmem hw' hs'
      rcases List.mem_cons.mp hmem with rfl | hmem2
      · have hst1 : (relax1 m bS v d st r').dist r'.dest ≤ d + weightOf m r' := by
          rcases relax1_cases_full m bS v d st r' with ⟨h1, heq⟩ | ⟨h1, heq⟩ |
            ⟨_, _, h3, heq⟩ | ⟨_, _, h3, heq⟩
          · exact absurd h1 hw'
          · exact absurd h1 hs'
          · rw [heq]
            omega
          · rw [heq]
            dsimp only
            rw [fupd_same]
        exact le_trans (hmonoF _) hst1
      · exact hprocF r' hmem2 hw' hs'

theorem DInv_pop_skip (g : GraphT) (src : Int) (m : Bool) (bN : List Int)
    (bS : List (Int × Int)) (st : DState) (d : Nat) (v : Int) (rest : List (Nat × Int))
    (hpq : st.pq = (d, v) :: rest)
    (hD : DInv g src m bN bS st)
    (hskip : d > st.dist v ∨ v ∈ bN) :
    DInv g src m bN bS { st with pq := rest } := by
  obtain ⟨hcore, hsettled⟩ := hD
  refine ⟨CoreInv_pq_tail g src m bN bS st rest ?_ hcore, ?_⟩
  · intro p hp
    rw [hpq]
    exact List.mem_cons_of_mem _ hp
  · intro u hu hfin
    rcases hsettled u hu hfin with h1 | h1
    · left
      rw [hpq] at h1
      rcases List.mem_cons.mp h1 with heq | h2
      · exfalso
        have hu_v : u = v := congrArg Prod.snd heq
        have hd_u : st.dist u = d := congrArg Prod.fst heq
        rcases hskip with hstale | hbn
        · rw [hu_v] at hd_u
          omega
        · rw [hu_v] at hu
          exact hu hbn
      · exact h2
    · right
      exact h1

/-- The main loop preserves the whole invariant. -/
theorem dloop_DInv (g : GraphT) (src : Int) (m : Bool) (bN : List Int)
    (bS : List (Int × Int)) (hwf : GraphWF g) :
    ∀ (fuel : Nat) (st : DState), DInv g src m bN bS st →
      DInv g src m bN bS (dloop g m bN bS fuel st) := by
  intro fuel
  induction fuel with
  | zero => intro st h; exact h
  | succ fuel ih =>
    intro st h
    cases hpq : st.pq with
    | nil => simpa [dloop, hpq] using h
    | cons hd rest =>
      obtain ⟨d, v⟩ := hd
      by_cases hstale : d > st.dist v
      · simpa [dloop, hpq, hstale] using
          ih _ (DInv_pop_skip g src m bN bS st d v rest hpq h (Or.inl hstale))
      · by_cases hbn : v ∈ bN
        · simpa [dloop, hpq, hstale, hbn] using
            ih _ (DInv_pop_skip g src m bN bS st d v rest hpq h (Or.inr hbn))
        · obtain ⟨hcore, hsettled⟩ := h
          have hddv : st.dist v = d := by
            have h1 := (hcore.pqGe (d, v) (by rw [hpq]; exact List.mem_cons_self _ _)).1
            dsimp only at h1
            omega
          have hcore1 : CoreInv g src m bN bS { st with pq := rest } := by
            apply CoreInv_pq_tail g src m bN bS st rest ?_ hcore
            intro p hp
            rw [hpq]
            exact List.mem_cons_of_mem _ hp
          have hoth1 : ∀ u, u ∉ bN → ({ st with pq := rest } : DState).dist u < INF →
              u ≠ v →
              ((({ st with pq := rest } : DState).dist u, u) ∈
                  ({ st with pq := rest } : DState).pq ∨
                SettledAt g m bS { st with pq := rest } u) := by
            intro u hu hfin hune
            rcases hsettled u hu hfin with h1 | h1
            · left
              rw [hpq] at h1
              rcases List.mem_cons.mp h1 with heq | h2
              · exact absurd (congrArg Prod.snd heq) hune
              · exact h2
            · right
              exact h1
          obtain ⟨hcoreF, hdvF, hmonoF, hothF, hprocF⟩ :=
            relaxAll_DInv g src m bN bS hwf v d hbn (adjOf g v) { st with pq := rest }
              (fun r hr => hr) hcore1 hddv hoth1
          have hfinal : DInv g src m bN bS
              (relaxAll m bS v d (adjOf g v) { st with pq := rest }) := by
            refine ⟨hcoreF, ?_⟩
            intro u hu hfin
            by_cases hune : u = v
            · subst hune
              right
              intro r hr hw hs
              rw [hdvF]
              exact hprocF r hr hw hs
            · exact hothF u hu hfin hune
          simpa [dloop, hpq, hstale, hbn] using ih _ hfinal

/-- Total tentative distance over the graph's locations: the first
component of the loop's termination measure. -/
def sumDist (g : GraphT) (st : DState) : Nat :=
  (g.locations.map (fun l => st.dist l.id)).sum

/-- The loop's termination measure: every iteration pops one entry,
and every push is paid for by a strict distance decrease. -/
def dmeasure (g : GraphT) (st : DState) : Nat := sumDist g st + st.pq.length

theorem sum_map_le (f f' : Int → Nat) (h : ∀ x, f' x ≤ f x) :
    ∀ ls : List LocT, (ls.map (fun l => f' l.id)).sum ≤ (ls.map (fun l => f l.id)).sum := by
  intro ls
  induction ls with
  | nil => exact le_refl _
  | cons l ls ih =>
    simp only [List.map_cons, List.sum_cons]
    exact Nat.add_le_add (h l.id) ih

theorem sum_map_lt (f f' : Int → Nat) (h : ∀ x, f' x ≤ f x) (a : Int) (hlt : f' a < f a) :
    ∀ ls : List LocT, (∃ l ∈ ls, l.id = a) →
      (ls.map (fun l => f' l.id)).sum < (ls.map (fun l => f l.id)).sum := by
  intro ls
  induction ls with
  | nil => rintro ⟨l, hl, _⟩; cases hl
  | cons l ls ih =>
    rintro ⟨l', hl', hid⟩
    simp only [List.map_cons, List.sum_cons]
    rcases List.mem_cons.mp hl' with rfl | hmem
    · have h1 : f' l'.id < f l'.id := by rw [hid]; exact hlt
      exact Nat.add_lt_add_of_lt_of_le h1 (sum_map_le f f' h ls)
    · exact Nat.add_lt_add_of_le_of_lt (h l.id) (ih ⟨l', hmem, hid⟩)

theorem pqInsert_length (x : Nat × Int) :
    ∀ l : List (Nat × Int), (pqInsert x l).length = l.length + 1 := by
  intro l
  induction l with
  | nil => rfl
  | cons y ys ih =>
    unfold pqInsert
    by_cases hle : pqLe x y = true
    · rw [if_pos hle]
      rfl
    · rw [if_neg hle]
      simp [ih]

theorem relax1_measure (g : GraphT) (hwf : GraphWF g) (m : Bool) (bS : List (Int × Int))
    (v : Int) (d : Nat) (st : DState) (r : RoadT) (hr : r ∈ adjOf g v) :
    dmeasure g (relax1 m bS v d st r) ≤ dmeasure g st := by
  rcases relax1_cases_full m bS v d st r with ⟨_, heq⟩ | ⟨_, heq⟩ | ⟨_, _, _, heq⟩ |
    ⟨_, _, hlt, heq⟩
  · rw [heq]
  · rw [heq]
  · rw [heq]
  · rw [heq]
    unfold dmeasure sumDist
    dsimp only
    rw [pqInsert_length]
    have hdest : ∃ l ∈ g.locations, l.id = r.dest :=
      (mem_idsOf_iff g r.dest).mp (adjOf_spec g hwf v r hr).2.1
    have hle : ∀ x, fupd st.dist r.dest (d + weightOf m r) x ≤ st.dist x := by
      intro x
      by_cases hx : x = r.dest
      · subst hx
        rw [fupd_same]
        exact le_of_lt hlt
      · rw [fupd_other _ _ _ _ hx]
    have hstrict := sum_map_lt st.dist (fupd st.dist r.dest (d + weightOf m r)) hle
      r.dest (by rw [fupd_same]; exact hlt) g.locations hdest
    omega

theorem relaxAll_measure (g : GraphT) (hwf : GraphWF g) (m : Bool)
    (bS : List (Int × Int)) (v : Int) (d : Nat) :
    ∀ (rs : List RoadT) (st : DState), (∀ r ∈ rs, r ∈ adjOf g v) →
      dmeasure g (relaxAll m bS v d rs st) ≤ dmeasure g st := by
  intro rs
  induction rs with
  | nil => intro st _; rw [relaxAll_nil]
  | cons r rs ih =>
    intro st hsub
    rw [relaxAll_cons]
    exact le_trans (ih _ (fun r' hr' => hsub r' (List.mem_cons_of_mem _ hr')))
      (relax1_measure g hwf m bS v d st r (hsub r (List.mem_cons_self _ _)))

/-- With fuel exceeding the measure, the loop runs the frontier dry:
the fuelled model behaves exactly like the unbounded `while` loop. -/
theorem dloop_complete (g : GraphT) (m : Bool) (bN : List Int) (bS : List (Int × Int))
    (hwf : GraphWF g) :
    ∀ (fuel : Nat) (st : DState), dmeasure g st < fuel →
      (dloop g m bN bS fuel st).pq = [] := by
  intro fuel
  induction fuel with
  | zero => intro st h; exact absurd h (Nat.not_lt_zero _)
  | succ fuel ih =>
    intro st h
    cases hpq : st.pq with
    | nil => simp [dloop, hpq]
    | cons hd rest =>
      obtain ⟨d, v⟩ := hd
      have hlen : st.pq.length = rest.length + 1 := by rw [hpq]; rfl
      have hmrest : dmeasure g { st with pq := rest } < fuel := by
        unfold dmeasure at h ⊢
        unfold sumDist at h ⊢
        dsimp only at h ⊢
        omega
      by_cases hstale : d > st.dist v
      · simpa [dloop, hpq, hstale] using ih _ hmrest
      · by_cases hbn : v ∈ bN
        · simpa [dloop, hpq, hstale, hbn] using ih _ hmrest
        · have hm2 : dmeasure g (relaxAll m bS v d (adjOf g v) { st with pq := rest })
              < fuel :=
            lt_of_le_of_lt
              (relaxAll_measure g hwf m bS v d (adjOf g v) _ (fun r hr => hr)) hmrest
          simpa [dloop, hpq, hstale, hbn] using ih _ hm2

theorem sum_map_le_const (f : Int → Nat) (c : Nat) :
    ∀ ls : List LocT, (∀ l ∈ ls, f l.id ≤ c) → (ls.map (fun l => f l.id)).sum ≤
      ls.length * c := by
  intro ls
  induction ls with
  | nil => intro _; simp
  | cons l ls ih =>
    intro h
    simp only [List.map_cons, List.sum_cons, List.length_cons]
    have h1 := h l (List.mem_cons_self _ _)
    have h2 := ih (fun l' hl' => h l' (List.mem_cons_of_mem _ hl'))
    calc f l.id + (ls.map (fun l => f l.id)).sum ≤ c + ls.length * c :=
          Nat.add_le_add h1 h2
      _ = (ls.length + 1) * c := by ring

theorem initDist_default (g : GraphT) (s v : Int) :
    initDist (fun _ => INF) g s v = if v = s then 0 else INF := by
  unfold initDist
  by_cases hvs : v = s
  · subst hvs
    rw [fupd_same, if_pos rfl]
  · rw [fupd_other _ _ _ _ hvs, if_neg hvs, foldl_fupd_const]
    split <;> rfl

theorem initParent_default (g : GraphT) (v : Int) :
    initParent (fun _ => none) g v = none :=
  initParent_none (fun _ => none) g v rfl

/-- The fuel used by `dijkstra` suffices: after the main loop the
frontier is empty. -/
theorem dloopFinal_pq_nil (g : GraphT) (s : Int) (m : Bool) (bN : List Int)
    (bS : List (Int × Int)) (hwf : GraphWF g) :
    (dloopFinal (fun _ => INF) (fun _ => none) g s m bN bS).pq = [] := by
  unfold dloopFinal
  apply dloop_complete g m bN bS hwf
  have hsum : sumDist g ⟨initDist (fun _ => INF) g s, initParent (fun _ => none) g,
      [(0, s)]⟩ ≤ g.locations.length * INF := by
    unfold sumDist
    apply sum_map_le_const
    intro l _
    dsimp only
    rw [initDist_default]
    split
    · exact Nat.zero_le _
    · exact le_refl _
  unfold dmeasure
  dsimp only
  simp only [List.length_singleton]
  omega

theorem find?_nodup_id (loc : LocT) :
    ∀ ls : List LocT, (ls.map (fun l => l.id)).Nodup → loc ∈ ls →
      ls.find? (fun l => l.id == loc.id) = some loc := by
  intro ls
  induction ls with
  | nil => intro _ h; cases h
  | cons l ls ih =>
    intro hnd hmem
    simp only [List.map_cons, List.nodup_cons] at hnd
    rcases List.mem_cons.mp hmem with rfl | hmem2
    · rw [List.find?_cons_of_pos]
      simp
    · have hne : ¬ (l.id == loc.id) = true := by
        simp only [beq_iff_eq]
        intro he
        have h1 : loc.id ∈ ls.map (fun l => l.id) := List.mem_map_of_mem _ hmem2
        rw [← he] at h1
        exact hnd.1 h1
      rw [List.find?_cons_of_neg]
      · exact ih hnd.2 hmem2
      · simpa using hne

theorem findLocation_nodup (g : GraphT) (hnd : (idsOf g).Nodup) (loc : LocT)
    (hmem : loc ∈ g.locations) : findLocation g loc.id = some loc := by
  unfold findLocation
  exact find?_nodup_id loc g.locations hnd hmem

/-- A road usable by a search in the given mode: stored in its origin
location's adjacency list, with a non-sentinel cost, and not excluded
by the blocked-segment set. -/
def RoadOK (g : GraphT) (m : Bool) (bS : List (Int × Int)) (r : RoadT) : Prop :=
  (∃ loc ∈ g.locations, loc.id = r.orig ∧ r ∈ loc.adj) ∧
    weightOf m r ≠ INF ∧ (r.orig, r.dest) ∉ bS

instance (g : GraphT) (m : Bool) (bS : List (Int × Int)) (r : RoadT) :
    Decidable (RoadOK g m bS r) := by
  unfold RoadOK
  infer_instance

/-- A route from one node to another: a chain of usable roads, each
originating at an unblocked node (the specification's notion of a path
the search may traverse, with its one-directional node blocking). -/
inductive Chained (g : GraphT) (m : Bool) (bN : List Int) (bS : List (Int × Int)) :
    Int → Int → List RoadT → Prop
  | nil (v : Int) : Chained g m bN bS v v []
  | cons (r : RoadT) (c : Int) (rs : List RoadT) :
      r.orig ∉ bN → RoadOK g m bS r → Chained g m bN bS r.dest c rs →
      Chained g m bN bS r.orig c (r :: rs)

/-- The node identifiers visited by a chain of roads. -/
def chainNodes (a : Int) (rs : List RoadT) : List Int := a :: rs.map (fun r => r.dest)

/-- The specification's "reachable": some usable route exists, of
total cost below the sentinel. -/
def Reachable (g : GraphT) (m : Bool) (bN : List Int) (bS : List (Int × Int))
    (s d : Int) : Prop :=
  ∃ rs, Chained g m bN bS s d rs ∧ (rs.map (weightOf m)).sum < INF

/-- The invariant holds when the main loop of a fresh `dijkstra` call
finishes. -/
theorem dloopFinal_DInv (g : GraphT) (s : Int) (m : Bool) (bN : List Int)
    (bS : List (Int × Int)) (hwf : GraphWF g) :
    DInv g s m bN bS (dloopFinal (fun _ => INF) (fun _ => none) g s m bN bS) := by
  unfold dloopFinal
  apply dloop_DInv g s m bN bS hwf
  have hpnone : ∀ v, initParent (fun _ => none) g v = none := initParent_default g
  have hdval : ∀ v, initDist (fun _ => INF) g s v = if v = s then 0 else INF :=
    initDist_default g s
  constructor
  · refine ⟨?_, ?_, ?_, ?_, ?_, ?_, ?_, ?_, ?_, ?_, ?_, ?_⟩
    · intro v
      dsimp only
      rw [hdval]
      split
      · exact Nat.zero_le _
      · exact le_refl _
    · dsimp only
      rw [hdval, if_pos rfl]
    · intro v r hr
      dsimp only at hr
      rw [hpnone] at hr
      cases hr
    · intro v r hr
      dsimp only at hr
      rw [hpnone] at hr
      cases hr
    · intro v r hr
      dsimp only at hr
      rw [hpnone] at hr
      cases hr
    · intro v r hr
      dsimp only at hr
      rw [hpnone] at hr
      cases hr
    · intro v r hr
      dsimp only at hr
      rw [hpnone] at hr
      cases hr
    · intro v r hr
      dsimp only at hr
      rw [hpnone] at hr
      cases hr
    · intro v r hr
      dsimp only at hr
      rw [hpnone] at hr
      cases hr
    · intro p hp
      dsimp only at hp ⊢
      rcases List.mem_singleton.mp hp with rfl
      dsimp only
      rw [hdval, if_pos rfl]
      exact ⟨le_refl _, by decide⟩
    · intro v hv
      dsimp only at hv ⊢
      by_cases hvs : v = s
      · exact Or.inl hvs
      · rw [hdval, if_neg hvs] at hv
        exact absurd hv (lt_irrefl _)
    · intro v hv
      dsimp only at hv ⊢
      by_cases hvs : v = s
      · subst hvs
        exact PChain.base
      · rw [hdval, if_neg hvs] at hv
        exact absurd hv (lt_irrefl _)
  · intro u hu hfin
    dsimp only at hfin ⊢
    by_cases hus : u = s
    · subst hus
      left
      rw [hdval, if_pos rfl]
      exact List.mem_singleton_self _
    · rw [hdval, if_neg hus] at hfin
      exact absurd hfin (lt_irrefl _)

/-- At loop end, every recorded parent edge is tight: the child's
distance equals the origin's distance plus the edge weight. -/
theorem final_parent_eq (g : GraphT) (s : Int) (m : Bool) (bN : List Int)
    (bS : List (Int × Int)) (hwf : GraphWF g) :
    ∀ v r, (dloopFinal (fun _ => INF) (fun _ => none) g s m bN bS).parent v = some r →
      (dloopFinal (fun _ => INF) (fun _ => none) g s m bN bS).dist v =
        (dloopFinal (fun _ => INF) (fun _ => none) g s m bN bS).dist r.orig +
          weightOf m r := by
  obtain ⟨hcore, hsettled⟩ := dloopFinal_DInv g s m bN bS hwf
  have hpq := dloopFinal_pq_nil g s m bN bS hwf
  intro v r hr
  have h1 := hcore.parLe v r hr
  have hfinv := hcore.parFin v r hr
  have hfino : (dloopFinal (fun _ => INF) (fun _ => none) g s m bN bS).dist r.orig
      < INF := by omega
  obtain ⟨loc, hloc, hlid, hradj⟩ := hcore.parRoad v r hr
  have hfl : findLocation g r.orig = some loc := by
    rw [← hlid]
    exact findLocation_nodup g hwf.1 loc hloc
  have hadj : r ∈ adjOf g r.orig := by
    unfold adjOf
    rw [hfl]
    exact hradj
  rcases hsettled r.orig (hcore.parNb v r hr) hfino with h2 | h2
  · rw [hpq] at h2
    cases h2
  · have h3 := h2 r hadj (hcore.parW v r hr) (hcore.parNs v r hr)
    rw [hcore.parDest v r hr] at h3
    omega

/-- Completeness at loop end: if a usable route of total cost below
the sentinel exists, the destination's final distance is finite (and
bounded by the route's cost). -/
theorem dijkstra_complete_bound (g : GraphT) (s : Int) (m : Bool) (bN : List Int)
    (bS : List (Int × Int)) (hwf : GraphWF g) :
    ∀ (c : Int) (rs : List RoadT) (a : Int), Chained g m bN bS a c rs →
      (dloopFinal (fun _ => INF) (fun _ => none) g s m bN bS).dist a +
          (rs.map (weightOf m)).sum < INF →
      (dloopFinal (fun _ => INF) (fun _ => none) g s m bN bS).dist c ≤
        (dloopFinal (fun _ => INF) (fun _ => none) g s m bN bS).dist a +
          (rs.map (weightOf m)).sum := by
  obtain ⟨hcore, hsettled⟩ := dloopFinal_DInv g s m bN bS hwf
  have hpq := dloopFinal_pq_nil g s m bN bS hwf
  intro c rs a hch
  induction hch with
  | nil v => intro _; simp
  | cons r c rs hbn hok hch2 ih =>
    intro hbound
    simp only [List.map_cons, List.sum_cons] at hbound ⊢
    obtain ⟨⟨loc, hloc, hlid, hradj⟩, hW, hS⟩ := hok
    have hfina : (dloopFinal (fun _ => INF) (fun _ => none) g s m bN bS).dist r.orig
        < INF := by omega
    have hfl : findLocation g r.orig = some loc := by
      rw [← hlid]
      exact findLocation_nodup g hwf.1 loc hloc
    have hadj : r ∈ adjOf g r.orig := by
      unfold adjOf
      rw [hfl]
      exact hradj
    rcases hsettled r.orig hbn hfina with h2 | h2
    · rw [hpq] at h2
      cases h2
    · have h3 := h2 r hadj hW hS
      have h4 := ih (by omega)
      omega

theorem parStep_none (par : Int → Option RoadT) (v : Int) (h : par v = none) :
    parStep par v = v := by
  unfold parStep
  rw [h]

theorem parStep_some (par : Int → Option RoadT) (v : Int) (r : RoadT)
    (h : par v = some r) : parStep par v = r.orig := by
  unfold parStep
  rw [h]

theorem walk_dist_fin (g : GraphT) (s : Int) (m : Bool) (bN : List Int)
    (bS : List (Int × Int)) (hwf : GraphWF g) (dd : Int)
    (hfin : (dloopFinal (fun _ => INF) (fun _ => none) g s m bN bS).dist dd < INF) :
    ∀ i, (dloopFinal (fun _ => INF) (fun _ => none) g s m bN bS).dist
      ((parStep (dloopFinal (fun _ => INF) (fun _ => none) g s m bN bS).parent)^[i] dd)
        < INF := by
  obtain ⟨hcore, _⟩ := dloopFinal_DInv g s m bN bS hwf
  intro i
  induction i with
  | zero => exact hfin
  | succ i ih =>
    rw [Function.iterate_succ_apply']
    cases hpv : (dloopFinal (fun _ => INF) (fun _ => none) g s m bN bS).parent
        ((parStep (dloopFinal (fun _ => INF) (fun _ => none) g s m bN bS).parent)^[i] dd)
        with
    | none =>
      rw [parStep_none _ _ hpv]
      exact ih
    | some r =>
      rw [parStep_some _ _ _ hpv]
      have h1 := hcore.parLe _ r hpv
      omega

/-- The reconstruction walk from a finite-distance destination reaches
the source in fewer steps than there are locations, visiting pairwise
distinct nodes, each step following a present parent edge. -/
theorem final_walk_spec (g : GraphT) (s : Int) (m : Bool) (bN : List Int)
    (bS : List (Int × Int)) (hwf : GraphWF g) (dd : Int) (hd : dd ∈ idsOf g)
    (hfin : (dloopFinal (fun _ => INF) (fun _ => none) g s m bN bS).dist dd < INF) :
    ∃ k, k < g.locations.length ∧
      (parStep (dloopFinal (fun _ => INF) (fun _ => none) g s m bN bS).parent)^[k] dd
        = s ∧
      (∀ i, i < k → ∃ r, (dloopFinal (fun _ => INF) (fun _ => none) g s m bN bS).parent
        ((parStep (dloopFinal (fun _ => INF) (fun _ => none) g s m bN bS).parent)^[i] dd)
          = some r) ∧
      (∀ i, i < k →
        (parStep (dloopFinal (fun _ => INF) (fun _ => none) g s m bN bS).parent)^[i] dd
          ≠ s) ∧
      (∀ i j, i ≤ k → j ≤ k →
        (parStep (dloopFinal (fun _ => INF) (fun _ => none) g s m bN bS).parent)^[i] dd =
        (parStep (dloopFinal (fun _ => INF) (fun _ => none) g s m bN bS).parent)^[j] dd →
          i = j) := by
  obtain ⟨hcore, _⟩ := dloopFinal_DInv g s m bN bS hwf
  have hex : ∃ n, (parStep
      (dloopFinal (fun _ => INF) (fun _ => none) g s m bN bS).parent)^[n] dd = s :=
    PChain_reaches _ _ _ dd (hcore.finChain dd hfin)
  set f := parStep (dloopFinal (fun _ => INF) (fun _ => none) g s m bN bS).parent with hf
  set k := Nat.find hex with hk
  have hks : f^[k] dd = s := Nat.find_spec hex
  have hmin : ∀ n < k, f^[n] dd ≠ s := fun n hn => Nat.find_min hex hn
  have hdef : ∀ i, i < k → ∃ r,
      (dloopFinal (fun _ => INF) (fun _ => none) g s m bN bS).parent (f^[i] dd)
        = some r := by
    intro i hik
    have hfi := walk_dist_fin g s m bN bS hwf dd hfin i
    rcases hcore.finPar _ hfi with h1 | h1
    · exact absurd h1 (hmin i hik)
    · cases hpv : (dloopFinal (fun _ => INF) (fun _ => none) g s m bN bS).parent
          (f^[i] dd) with
      | none => exact absurd hpv h1
      | some r => exact ⟨r, rfl⟩
  have hinj := first_hit_inj _ dd s k hks hmin
  have hmem : ∀ i, i ≤ k → f^[i] dd ∈ idsOf g := by
    intro i hik
    cases i with
    | zero => exact hd
    | succ j =>
      obtain ⟨r, hr⟩ := hdef j (by omega)
      have hstep : f^[j + 1] dd = r.orig := by
        rw [Function.iterate_succ_apply']
        exact parStep_some _ _ _ hr
      obtain ⟨loc, hloc, hlid, _⟩ := hcore.parRoad _ r hr
      rw [hstep, ← hlid]
      exact List.mem_map_of_mem _ hloc
  have hklt : k < g.locations.length := by
    have hnodup : ((List.range (k + 1)).map (fun i => f^[i] dd)).Nodup := by
      apply List.Nodup.map_on
      · intro i hi j hj hij
        exact hinj i j (by simpa using Nat.lt_succ_iff.mp (List.mem_range.mp hi))
          (by simpa using Nat.lt_succ_iff.mp (List.mem_range.mp hj)) hij
      · exact List.nodup_range _
    have hsub : ∀ x ∈ (List.range (k + 1)).map (fun i => f^[i] dd), x ∈ idsOf g := by
      intro x hx
      obtain ⟨i, hi, rfl⟩ := List.mem_map.mp hx
      exact hmem i (Nat.lt_succ_iff.mp (List.mem_range.mp hi))
    have h1 : ((List.range (k + 1)).map (fun i => f^[i] dd)).toFinset.card =
        k + 1 := by
      rw [List.toFinset_card_of_nodup hnodup]
      simp
    have h2 : ((List.range (k + 1)).map (fun i => f^[i] dd)).toFinset ⊆
        (idsOf g).toFinset := by
      intro x hx
      rw [List.mem_toFinset] at hx ⊢
      exact hsub x hx
    have h3 := Finset.card_le_card h2
    have h4 := (idsOf g).toFinset_card_le
    have h5 : (idsOf g).length = g.locations.length := by
      unfold idsOf
      simp
    omega
  exact ⟨k, hklt, hks, hdef, hmin, hinj⟩

/-- The reconstruction loop, given enough fuel, produces exactly the
destination followed by the origins of the traversed parent edges. -/
theorem reconAux_walk (par : Int → Option RoadT) (src : Int) :
    ∀ (k fuel : Nat) (v : Int) (path : List Int) (segs : List (Int × Int)),
      k ≤ fuel →
      (∀ i, i < k → ∃ r, par ((parStep par)^[i] v) = some r) →
      (∀ i, i < k → (parStep par)^[i] v ≠ src) →
      ((parStep par)^[k] v = src ∨ par ((parStep par)^[k] v) = none) →
      (reconAux par src fuel v path segs).1 =
        path ++ (List.range k).map (fun i => (parStep par)^[i + 1] v) := by
  intro k
  induction k with
  | zero =>
    intro fuel v path segs _ _ _ hstop
    simp only [Function.iterate_zero, id_eq] at hstop
    simp only [List.range_zero, List.map_nil, List.append_nil]
    cases fuel with
    | zero => rfl
    | succ fuel =>
      rcases hstop with hsrc | hnone
      · cases hpv : par v with
        | none =>
          unfold reconAux
          rw [hpv]
        | some r =>
          unfold reconAux
          rw [hpv]
          simp [hsrc]
      · unfold reconAux
        rw [hnone]
  | succ k ih =>
    intro fuel v path segs hkf hdef hne hstop
    cases fuel with
    | zero => omega
    | succ fuel =>
      obtain ⟨r, hr⟩ := by
        have := hdef 0 (Nat.succ_pos _)
        simpa using this
      have hvs : v ≠ src := by
        have := hne 0 (Nat.succ_pos _)
        simpa using this
      have hstep : reconAux par src (fuel + 1) v path segs =
          reconAux par src fuel r.orig (path ++ [r.orig])
            (segInsert (r.orig, r.dest) segs) := by
        simp [reconAux, hr, hvs]
      have hfv : parStep par v = r.orig := by
        unfold parStep
        rw [hr]
      have hshift : ∀ i, (parStep par)^[i] r.orig = (parStep par)^[i + 1] v := by
        intro i
        rw [Function.iterate_succ_apply, hfv]
      have ihres := ih fuel r.orig (path ++ [r.orig]) (segInsert (r.orig, r.dest) segs)
        (by omega) ?_ ?_ ?_
      · rw [hstep, ihres, List.append_assoc]
        congr 1
        rw [List.range_succ_eq_map]
        simp only [List.map_cons, List.map_map, List.singleton_append]
        congr 1
        · rw [← hfv]
          rfl
        · apply List.map_congr_left
          intro i _
          simp only [Function.comp_apply]
          exact hshift (i + 1)
      · intro i hik
        rw [hshift i]
        exact hdef (i + 1) (by omega)
      · intro i hik
        rw [hshift i]
        exact hne (i + 1) (by omega)
      · rw [hshift k]
        exact hstop

theorem reconAux_ne_nil (par : Int → Option RoadT) (src : Int) :
    ∀ (fuel : Nat) (v : Int) (path : List Int) (segs : List (Int × Int)),
      path ≠ [] → (reconAux par src fuel v path segs).1 ≠ [] := by
  intro fuel
  induction fuel with
  | zero => intro v path segs h; exact h
  | succ fuel ih =>
    intro v path segs h
    cases hpv : par v with
    | none =>
      unfold reconAux
      rw [hpv]
      exact h
    | some r =>
      by_cases hvs : v = src
      · unfold reconAux
        rw [hpv]
        simp only [hvs, if_pos rfl]
        exact h
      · have hstep : reconAux par src (fuel + 1) v path segs =
            reconAux par src fuel r.orig (path ++ [r.orig])
              (segInsert (r.orig, r.dest) segs) := by
          simp [reconAux, hpv, hvs]
        rw [hstep]
        apply ih
        simp

theorem dijkstra_empty_iff (g : GraphT) (s d : Int) (m : Bool) (bN : List Int)
    (bS : List (Int × Int)) :
    (dijkstra g s d m bN bS).1.1 = [] ↔
      (dloopFinal (fun _ => INF) (fun _ => none) g s m bN bS).dist d = INF := by
  by_cases hinf : (dloopFinal (fun _ => INF) (fun _ => none) g s m bN bS).dist d = INF
  · rw [dijkstra_def, dijkstraFrom_unreachable _ _ _ _ _ _ _ _ hinf]
    simp [hinf]
  · rw [dijkstra_def, dijkstraFrom_reachable _ _ _ _ _ _ _ _ hinf]
    simp only [hinf, iff_false]
    intro hrev
    have h1 := reconAux_ne_nil
      (dloopFinal (fun _ => INF) (fun _ => none) g s m bN bS).parent s
      (g.locations.length + 1) d [d] bS (by simp)
    rw [List.reverse_eq_nil_iff] at hrev
    exact h1 hrev

/-- Soundness of a non-empty result: the returned path is the node
sequence of a usable chain of roads from source to destination whose
weights sum to the returned cost. -/
theorem dijkstra_nonempty_spec (g : GraphT) (s d : Int) (m : Bool) (bN : List Int)
    (bS : List (Int × Int)) (hwf : GraphWF g) (hd : d ∈ idsOf g)
    (hfin : ¬ (dloopFinal (fun _ => INF) (fun _ => none) g s m bN bS).dist d = INF) :
    ∃ rs, Chained g m bN bS s d rs ∧
      chainNodes s rs = (dijkstra g s d m bN bS).1.1 ∧
      (rs.map (weightOf m)).sum = (dijkstra g s d m bN bS).1.2 ∧
      (dijkstra g s d m bN bS).1.1.head? = some s ∧
      (dijkstra g s d m bN bS).1.1.getLast? = some d := by
  obtain ⟨hcore, hsettled⟩ := dloopFinal_DInv g s m bN bS hwf
  have hlt : (dloopFinal (fun _ => INF) (fun _ => none) g s m bN bS).dist d < INF :=
    lt_of_le_of_ne (hcore.distLe d) hfin
  obtain ⟨k, hkn, hks, hdef, hmin, hinj⟩ := final_walk_spec g s m bN bS hwf d hd hlt
  set f := parStep (dloopFinal (fun _ => INF) (fun _ => none) g s m bN bS).parent
    with hf
  have hchain : ∀ i, i ≤ k → ∃ rs, Chained g m bN bS (f^[i] d) d rs ∧
      (rs.map (weightOf m)).sum +
        (dloopFinal (fun _ => INF) (fun _ => none) g s m bN bS).dist (f^[i] d) =
        (dloopFinal (fun _ => INF) (fun _ => none) g s m bN bS).dist d ∧
      chainNodes (f^[i] d) rs =
        ((List.range i).map (fun j => f^[j + 1] d)).reverse ++ [d] := by
    intro i
    induction i with
    | zero =>
      intro _
      refine ⟨[], Chained.nil _, by simp, ?_⟩
      simp [chainNodes]
    | succ i ih =>
      intro hik
      obtain ⟨rs, hch, hsum, hnodes⟩ := ih (by omega)
      obtain ⟨r, hr⟩ := hdef i (by omega)
      have hstep : f^[i + 1] d = r.orig := by
        rw [Function.iterate_succ_apply']
        exact parStep_some _ _ _ hr
      have hdest : r.dest = f^[i] d := hcore.parDest _ r hr
      have heq := final_parent_eq g s m bN bS hwf _ r hr
      refine ⟨r :: rs, ?_, ?_, ?_⟩
      · rw [hstep]
        refine Chained.cons r d rs (hcore.parNb _ r hr)
          ⟨hcore.parRoad _ r hr, hcore.parW _ r hr, hcore.parNs _ r hr⟩ ?_
        rw [hdest]
        exact hch
      · rw [hstep]
        simp only [List.map_cons, List.sum_cons]
        omega
      · have hln : chainNodes (f^[i + 1] d) (r :: rs) =
            f^[i + 1] d :: chainNodes (f^[i] d) rs := by
          unfold chainNodes
          simp only [List.map_cons]
          rw [hdest]
        rw [hln, hnodes, List.range_succ]
        simp only [List.map_append, List.map_cons, List.map_nil,
          List.reverse_append, List.reverse_cons, List.reverse_nil, List.nil_append,
          List.singleton_append, List.cons_append]
  obtain ⟨rs, hch, hsum, hnodes⟩ := hchain k (le_refl _)
  rw [hks] at hch hsum hnodes
  have hsum2 : (rs.map (weightOf m)).sum =
      (dloopFinal (fun _ => INF) (fun _ => none) g s m bN bS).dist d := by
    rw [hcore.distSrc] at hsum
    omega
  have hrecon := reconAux_walk
    (dloopFinal (fun _ => INF) (fun _ => none) g s m bN bS).parent s k
    (g.locations.length + 1) d [d] bS (by omega) hdef hmin (Or.inl hks)
  have hpath : (dijkstra g s d m bN bS).1.1 = chainNodes s rs := by
    rw [dijkstra_def, dijkstraFrom_reachable _ _ _ _ _ _ _ _ hfin]
    dsimp only
    rw [hrecon, hnodes]
    rw [List.reverse_append]
    simp
  have hcost : (dijkstra g s d m bN bS).1.2 =
      (dloopFinal (fun _ => INF) (fun _ => none) g s m bN bS).dist d := by
    rw [dijkstra_def, dijkstraFrom_reachable _ _ _ _ _ _ _ _ hfin]
  refine ⟨rs, hch, hpath.symm, ?_, ?_, ?_⟩
  · rw [hcost]
    exact hsum2
  · rw [hpath]
    simp [chainNodes]
  · rw [hpath, hnodes]
    exact getLast?_append_singleton _ _

/-- Claim C1: for every well-formed graph and reachable source and
destination pair with empty exclusion sets, `dijkstra` returns a
non-empty path whose first element is the source, whose last element
is the destination, and whose traversed roads' per-mode weights sum to
the returned total cost. -/
theorem dijkstra_reachable_correct (g : GraphT) (s d : Int) (m : Bool)
    (hwf : GraphWF g) (hd : d ∈ idsOf g) (hreach : Reachable g m [] [] s d) :
    (dijkstra g s d m [] []).1.1 ≠ [] ∧
      (dijkstra g s d m [] []).1.1.head? = some s ∧
      (dijkstra g s d m [] []).1.1.getLast? = some d ∧
      ∃ rs, Chained g m [] [] s d rs ∧
        chainNodes s rs = (dijkstra g s d m [] []).1.1 ∧
        (rs.map (weightOf m)).sum = (dijkstra g s d m [] []).1.2 := by
  obtain ⟨rs0, hch0, hsum0⟩ := hreach
  obtain ⟨hcore, _⟩ := dloopFinal_DInv g s m [] [] hwf
  have hb := dijkstra_complete_bound g s m [] [] hwf d rs0 s hch0
    (by rw [hcore.distSrc]; omega)
  have hfin : ¬ (dloopFinal (fun _ => INF) (fun _ => none) g s m [] []).dist d
      = INF := by
    rw [hcore.distSrc] at hb
    omega
  obtain ⟨rs, hch, hnodes, hsum, hhead, hlast⟩ :=
    dijkstra_nonempty_spec g s d m [] [] hwf hd hfin
  have hne : (dijkstra g s d m [] []).1.1 ≠ [] := by
    rw [Ne, dijkstra_empty_iff]
    exact hfin
  exact ⟨hne, hhead, hlast, rs, hch, hnodes, hsum⟩

theorem dijkstra_reachable_correct_witness :
    GraphWF sampleGraph ∧ (3 : Int) ∈ idsOf sampleGraph ∧
      Reachable sampleGraph true [] [] 1 3 ∧
      ((dijkstra sampleGraph 1 3 true [] []).1.1 ≠ [] ∧
        (dijkstra sampleGraph 1 3 true [] []).1.1.head? = some 1 ∧
        (dijkstra sampleGraph 1 3 true [] []).1.1.getLast? = some 3 ∧
        ∃ rs, Chained sampleGraph true [] [] 1 3 rs ∧
          chainNodes 1 rs = (dijkstra sampleGraph 1 3 true [] []).1.1 ∧
          (rs.map (weightOf true)).sum = (dijkstra sampleGraph 1 3 true [] []).1.2) :=
  ⟨by decide, by decide,
    ⟨[⟨1, 2, 5, 20⟩, ⟨2, 3, 4, 3⟩],
      Chained.cons ⟨1, 2, 5, 20⟩ 3 [⟨2, 3, 4, 3⟩] (List.not_mem_nil _) (by decide)
        (Chained.cons ⟨2, 3, 4, 3⟩ 3 [] (List.not_mem_nil _) (by decide)
          (Chained.nil 3)),
      by decide⟩,
    dijkstra_reachable_correct sampleGraph 1 3 true (by decide) (by decide)
      ⟨[⟨1, 2, 5, 20⟩, ⟨2, 3, 4, 3⟩],
        Chained.cons ⟨1, 2, 5, 20⟩ 3 [⟨2, 3, 4, 3⟩] (List.not_mem_nil _) (by decide)
          (Chained.cons ⟨2, 3, 4, 3⟩ 3 [] (List.not_mem_nil _) (by decide)
            (Chained.nil 3)),
        by decide⟩⟩

/-- Claim C10: after a `dijkstra` search in which the destination ends
with a finite distance, the parent references form an acyclic chain
from the destination back to the source: the reconstruction walk
reaches the source within as many steps as there are locations,
visiting pairwise distinct nodes. -/
theorem dijkstra_reconstruction_bounded (g : GraphT) (s d : Int) (m : Bool)
    (bN : List Int) (bS : List (Int × Int)) (hwf : GraphWF g) (hd : d ∈ idsOf g)
    (hfin : ¬ (dloopFinal (fun _ => INF) (fun _ => none) g s m bN bS).dist d = INF) :
    ∃ k ≤ g.locations.length,
      (parStep (dloopFinal (fun _ => INF) (fun _ => none) g s m bN bS).parent)^[k] d
        = s ∧
      ∀ i j, i ≤ k → j ≤ k →
        (parStep (dloopFinal (fun _ => INF) (fun _ => none) g s m bN bS).parent)^[i] d =
        (parStep (dloopFinal (fun _ => INF) (fun _ => none) g s m bN bS).parent)^[j] d →
          i = j := by
  have hlt : (dloopFinal (fun _ => INF) (fun _ => none) g s m bN bS).dist d < INF :=
    lt_of_le_of_ne ((dloopFinal_DInv g s m bN bS hwf).1.distLe d) hfin
  obtain ⟨k, hkn, hks, _, _, hinj⟩ := final_walk_spec g s m bN bS hwf d hd hlt
  exact ⟨k, by omega, hks, hinj⟩

theorem dijkstra_reconstruction_bounded_witness :
    GraphWF sampleGraph ∧ (3 : Int) ∈ idsOf sampleGraph ∧
      ¬ (dloopFinal (fun _ => INF) (fun _ => none) sampleGraph 1 true [] []).dist 3
        = INF ∧
      ∃ k ≤ sampleGraph.locations.length,
        (parStep (dloopFinal (fun _ => INF) (fun _ => none) sampleGraph 1 true
          [] []).parent)^[k] 3 = 1 ∧
        ∀ i j, i ≤ k → j ≤ k →
          (parStep (dloopFinal (fun _ => INF) (fun _ => none) sampleGraph 1 true
            [] []).parent)^[i] 3 =
          (parStep (dloopFinal (fun _ => INF) (fun _ => none) sampleGraph 1 true
            [] []).parent)^[j] 3 → i = j :=
  ⟨by decide, by decide, by decide,
    dijkstra_reconstruction_bounded sampleGraph 1 3 true [] [] (by decide) (by decide)
      (by decide)⟩

theorem reconAux_segs_mono (par : Int → Option RoadT) (src : Int) :
    ∀ (fuel : Nat) (v : Int) (path : List Int) (segs : List (Int × Int)) (p : Int × Int),
      p ∈ segs → p ∈ (reconAux par src fuel v path segs).2 := by
  intro fuel
  induction fuel with
  | zero => intro v path segs p hp; exact hp
  | succ fuel ih =>
    intro v path segs p hp
    cases hpv : par v with
    | none =>
      unfold reconAux
      rw [hpv]
      exact hp
    | some r =>
      by_cases hvs : v = src
      · unfold reconAux
        rw [hpv]
        simp only [hvs, if_pos rfl]
        exact hp
      · have hstep : reconAux par src (fuel + 1) v path segs =
            reconAux par src fuel r.orig (path ++ [r.orig])
              (segInsert (r.orig, r.dest) segs) := by
          simp [reconAux, hpv, hvs]
        rw [hstep]
        exact ih _ _ _ p (mem_segInsert_of_mem _ _ _ hp)

theorem dijkstra_segs_superset (g : GraphT) (s d : Int) (m : Bool) (bN : List Int)
    (bS : List (Int × Int)) :
    ∀ p ∈ bS, p ∈ (dijkstra g s d m bN bS).2 := by
  intro p hp
  by_cases hinf : (dloopFinal (fun _ => INF) (fun _ => none) g s m bN bS).dist d = INF
  · rw [dijkstra_def, dijkstraFrom_unreachable _ _ _ _ _ _ _ _ hinf]
    exact hp
  · rw [dijkstra_def, dijkstraFrom_reachable _ _ _ _ _ _ _ _ hinf]
    exact reconAux_segs_mono _ _ _ _ _ _ p hp

theorem dijkstra_edges_not_blocked (g : GraphT) (s d : Int) (m : Bool)
    (bN : List Int) (bS : List (Int × Int)) (hwf : GraphWF g) :
    ∀ e ∈ pathEdges (dijkstra g s d m bN bS).1.1, e ∉ bS := by
  obtain ⟨hcore, _⟩ := dloopFinal_DInv g s m bN bS hwf
  intro e he
  obtain ⟨a, b⟩ := e
  by_cases hinf : (dloopFinal (fun _ => INF) (fun _ => none) g s m bN bS).dist d = INF
  · rw [dijkstra_def, dijkstraFrom_unreachable _ _ _ _ _ _ _ _ hinf] at he
    simp [pathEdges_nil] at he
  · rw [dijkstra_def, dijkstraFrom_reachable _ _ _ _ _ _ _ _ hinf] at he
    obtain ⟨r, hpar, horig⟩ := reconAux_edges_parent _ s _ d [d] bS (by simp)
      (by intro a' b' h'; simp [pathEdges_single] at h') a b he
    have hdest : r.dest = b := hcore.parDest b r hpar
    have hns := hcore.parNs b r hpar
    rw [horig, hdest] at hns
    exact hns

theorem Chained_mono_bS (g : GraphT) (m : Bool) (bN : List Int)
    (B Bp : List (Int × Int)) (hsub : ∀ p ∈ Bp, p ∈ B) :
    ∀ (a c : Int) (rs : List RoadT), Chained g m bN B a c rs →
      Chained g m bN Bp a c rs := by
  intro a c rs h
  induction h with
  | nil v => exact Chained.nil v
  | cons r c rs hbn hok hch ih =>
    exact Chained.cons r c rs hbn ⟨hok.1, hok.2.1, fun hmem => hok.2.2 (hsub _ hmem)⟩ ih

/-- Claim C3: two sequential `dijkstra` calls on the same mutable
blocked-segment set: the second path's directed edges are disjoint
from the first path's, and if no usable route avoiding both the
original exclusions and the first path's directed edges exists, the
second call returns the empty result (so never a duplicate of a
first path that traverses an edge). -/
theorem dijkstra_sequential_calls (g : GraphT) (s d : Int) (m : Bool) (bN : List Int)
    (bS : List (Int × Int)) (hwf : GraphWF g) (hd : d ∈ idsOf g) :
    (∀ e ∈ pathEdges (dijkstra g s d m bN (dijkstra g s d m bN bS).2).1.1,
        e ∉ pathEdges (dijkstra g s d m bN bS).1.1) ∧
      ((¬ ∃ rs, Chained g m bN (bS ++ pathEdges (dijkstra g s d m bN bS).1.1) s d rs) →
        (dijkstra g s d m bN (dijkstra g s d m bN bS).2).1.1 = []) := by
  constructor
  · intro e he hmem1
    have h1 := dijkstra_edges_blocked_aux g s d m bN bS e hmem1
    have h2 := dijkstra_edges_not_blocked g s d m bN (dijkstra g s d m bN bS).2 hwf e he
    exact h2 h1
  · intro hno
    by_contra hne
    have hfin : ¬ (dloopFinal (fun _ => INF) (fun _ => none) g s m bN
        (dijkstra g s d m bN bS).2).dist d = INF := by
      intro hinf
      exact hne ((dijkstra_empty_iff g s d m bN (dijkstra g s d m bN bS).2).mpr hinf)
    obtain ⟨rs, hch, -, -, -, -⟩ :=
      dijkstra_nonempty_spec g s d m bN (dijkstra g s d m bN bS).2 hwf hd hfin
    apply hno
    refine ⟨rs, Chained_mono_bS g m bN (dijkstra g s d m bN bS).2 _ ?_ s d rs hch⟩
    intro p hp
    rcases List.mem_append.mp hp with h1 | h1
    · exact dijkstra_segs_superset g s d m bN bS p h1
    · exact dijkstra_edges_blocked_aux g s d m bN bS p h1

theorem dijkstra_sequential_calls_witness :
    GraphWF sampleGraph ∧ (3 : Int) ∈ idsOf sampleGraph ∧
      ((∀ e ∈ pathEdges (dijkstra sampleGraph 1 3 true []
            (dijkstra sampleGraph 1 3 true [] []).2).1.1,
          e ∉ pathEdges (dijkstra sampleGraph 1 3 true [] []).1.1) ∧
        ((¬ ∃ rs, Chained sampleGraph true []
            ([] ++ pathEdges (dijkstra sampleGraph 1 3 true [] []).1.1) 1 3 rs) →
          (dijkstra sampleGraph 1 3 true []
            (dijkstra sampleGraph 1 3 true [] []).2).1.1 = [])) :=
  ⟨by decide, by decide,
    dijkstra_sequential_calls sampleGraph 1 3 true [] [] (by decide) (by decide)⟩

theorem dijkstra_traversed_edges_blocked_witness :
    ((1 : Int), (2 : Int)) ∈ pathEdges (dijkstra sampleGraph 1 3 true [] []).1.1 ∧
      ((1 : Int), (2 : Int)) ∈ (dijkstra sampleGraph 1 3 true [] []).2 :=
  ⟨by decide,
    dijkstra_traversed_edges_blocked sampleGraph 1 3 true [] [] (1, 2) (by decide)⟩
